import Mathlib

/-!
Verification development for the claude-history-tool repository.

The TypeScript sources are shallowly embedded as Lean definitions:

* JSON values (`JsonVal`), message content units (`ContentItem`) and chat
  records (`ChatMessage`) mirror the `ChatMessage` interface of the repo's
  type declarations.
* JavaScript strings are modelled as Lean `String`s (sequences of characters;
  `slice`/`length` become `String.take`/`String.length`), and JavaScript
  truthiness of optional strings is made explicit (`truthyStr`).
* `new Date(s).getTime()` is modelled by an explicit parameter
  `g : String → Int` supplied to the functions that compare timestamps;
  the embedding never needs to parse dates itself.
* The line-by-line log reader is modelled by classifying each raw line of a
  file (`LogLine`): blank after trimming, non-blank but not valid JSON, or a
  parsed record.  This models `readline` + `JSON.parse` as data.
* JavaScript `Map`s are association lists with `Map.set` semantics
  (`mapSet`: overwrite in place, append if absent) and `Map.get`/`Map.has`
  as first-match lookup (keys are unique by construction of `mapSet`).
-/

/-- The `type` field of a chat record: `'user' | 'assistant' | 'system'`. -/
inductive MsgType where
  | user
  | assistant
  | system
deriving DecidableEq, Repr

/-- A structured JSON value, used for the opaque `input` of a tool invocation
and the payload of a tool result. -/
inductive JsonVal where
  | str (s : String)
  | num (n : Int)
  | bool (b : Bool)
  | null
  | arr (xs : List JsonVal)
  | obj (fields : List (String × JsonVal))

/-- One element of an array-form `message.content`: either a bare string or an
object discriminated by its `type` field (`text`, `tool_use`, `tool_result`,
`thinking`); `other` stands for objects with an unrecognized `type`. -/
inductive ContentItem where
  | str (s : String)
  | text (t : Option String)
  | toolUse (id : Option String) (name : Option String) (input : Option JsonVal)
  | toolResult (toolUseId : Option String) (content : Option JsonVal)
  | thinking (t : Option String)
  | other

/-- The `message.content` union: a bare string or an ordered list of items. -/
inductive MessageContent where
  | str (s : String)
  | items (l : List ContentItem)

/-- The nested `message` object of a record (fields not consulted by the
embedded functions, such as `role` and `usage`, are omitted). -/
structure MessageBody where
  content : Option MessageContent

/-- One parsed log record.  Fields never consulted by the embedded functions
(`parentUuid`, `version`, `uuid`, ...) are omitted.  `sessionId` is `none`
when the field is absent or not a string. -/
structure ChatMessage where
  type : MsgType
  sessionId : Option String
  timestamp : String
  cwd : String
  isMeta : Bool
  internalMessageType : Option String
  message : Option MessageBody

/-- Truthiness of `s.trim()` in JavaScript: the trimmed string is non-empty
exactly when `s` contains a non-whitespace character.  The sources only ever
call `.trim()` inside a truthiness test, so this is the whole model of
`trim`. -/
def trimNonempty (s : String) : Bool :=
  s.data.any (fun c => !c.isWhitespace)

/-- JavaScript `s.slice(0, n)`, on the character model of strings. -/
def jsSlice (s : String) (n : Nat) : String :=
  String.mk (s.data.take n)

/-- JavaScript `s.length`, on the character model of strings. -/
def jsLen (s : String) : Nat :=
  s.data.length

/-- JavaScript truthiness of an optional string field: `undefined` and the
empty string are falsy. -/
def truthyStr : Option String → Bool
  | none => false
  | some s => s ≠ ""

/-- JavaScript `a || b` for an optional string `a` with default `b`. -/
def jsOrStr (o : Option String) (d : String) : String :=
  match o with
  | some s => if s = "" then d else s
  | none => d

/-- The `message?.content` access used throughout the renderer code. -/
def contentOf (m : ChatMessage) : Option MessageContent :=
  match m.message with
  | some body => body.content
  | none => none

/-- A parsed segment of `parseMarkdownCodeBlocks` output (`CodeBlock.tsx`):
tag `'code' | 'text'`. -/
inductive SegKind where
  | code
  | text
deriving DecidableEq, Repr

/-- One block of `parseMarkdownCodeBlocks` output. -/
structure ParsedCodeBlock where
  type : SegKind
  content : String
  language : Option String
deriving DecidableEq, Repr

/-- A character matched by the regex class `\w`. -/
def isWordChar (c : Char) : Bool :=
  c.isAlpha || c.isDigit || c = '_'

/-- The backtick character (code 96), written via `Char.ofNat` so that the
source contains no literal backtick. -/
def btick : Char := Char.ofNat 96

/-- Whether `cs` starts with the three-backtick fence. -/
def isFenceAt (cs : List Char) : Bool :=
  match cs with
  | c1 :: c2 :: c3 :: _ => c1 = btick && c2 = btick && c3 = btick
  | _ => false

/-- Attempts the regex `\x60\x60\x60(\w+)?\n` at the head of `cs` (the opening
of the code-fence regex of `CodeBlock.tsx`): on success returns the optional
language capture and the characters after the newline. -/
def matchFenceOpen (cs : List Char) : Option (Option String × List Char) :=
  if isFenceAt cs then
    let rest := cs.drop 3
    let lang := rest.takeWhile isWordChar
    match rest.dropWhile isWordChar with
    | '\n' :: rest' =>
      some (if lang.isEmpty then none else some (String.mk lang), rest')
    | _ => none
  else none

/-- Splits `cs` at the first occurrence of the closing fence, mirroring the
lazy `([\s\S]*?)` capture followed by the closing fence in the regex: returns
the (shortest) characters before the fence and the characters after it. -/
def splitAtFence : List Char → Option (List Char × List Char)
  | [] => none
  | c :: rest =>
    if isFenceAt (c :: rest) then some ([], rest.drop 2)
    else
      match splitAtFence rest with
      | some (before, after) => some (c :: before, after)
      | none => none

/-- Scans for the first match of the code-fence regex, the way a global regex
`exec` advances one position at a time: on success returns the text before the
match, the language capture, the code capture and the remaining input. -/
def findCodeFence : List Char → Option (List Char × Option String × List Char × List Char)
  | [] => none
  | c :: cs =>
    match matchFenceOpen (c :: cs) with
    | some (lang, afterOpen) =>
      match splitAtFence afterOpen with
      | some (code, rest) => some ([], lang, code, rest)
      | none => none
    | none =>
      match findCodeFence cs with
      | some (before, lang, code, rest) => some (c :: before, lang, code, rest)
      | none => none

/-- The `exec` loop of `parseMarkdownCodeBlocks`, with explicit fuel (the
input length bounds the number of matches).  Returns the blocks produced by
the loop body together with the unconsumed tail (`lastIndex` onward). -/
def fenceLoop (fuel : Nat) (cs : List Char) : List ParsedCodeBlock × List Char :=
  match fuel with
  | 0 => ([], cs)
  | fuel + 1 =>
    match findCodeFence cs with
    | none => ([], cs)
    | some (before, lang, code, rest) =>
      let (blocks, rem) := fenceLoop fuel rest
      let pre :=
        if trimNonempty (String.mk before) then
          [{ type := SegKind.text, content := String.mk before, language := none }]
        else []
      (pre ++ { type := SegKind.code, content := String.mk code, language := lang } :: blocks, rem)

/-- Embedding of `parseMarkdownCodeBlocks` (`CodeBlock.tsx`): splits a text
into literal-text blocks and fenced-code blocks. -/
def parseMarkdownCodeBlocks (text : String) : List ParsedCodeBlock :=
  let (blocks, rem) := fenceLoop text.data.length text.data
  let withTail :=
    if !rem.isEmpty && trimNonempty (String.mk rem) then
      blocks ++ [{ type := SegKind.text, content := String.mk rem, language := none }]
    else blocks
  if withTail.isEmpty && trimNonempty text then
    [{ type := SegKind.text, content := text, language := none }]
  else withTail

/-- Field access `o[k]` on a parsed JSON object.  `JSON.parse` keeps the last
occurrence of a duplicated key, so lookup is last-wins. -/
def objGet (fields : List (String × JsonVal)) (k : String) : Option JsonVal :=
  match fields with
  | [] => none
  | (k', v) :: rest =>
    match objGet rest k with
    | some r => some r
    | none => if k' = k then some v else none

/-- JavaScript truthiness of a JSON value. -/
def jsTruthy : JsonVal → Bool
  | .str s => s ≠ ""
  | .num n => n ≠ 0
  | .bool b => b
  | .null => false
  | .arr _ => true
  | .obj _ => true

mutual
/-- The `String(v)` coercion.  Arrays join their elements' coercions with
commas (`null` elements become empty), objects print as in JavaScript. -/
def jsString : JsonVal → String
  | .str s => s
  | .num n => toString n
  | .bool b => cond b "true" "false"
  | .null => "null"
  | .arr xs => jsStringElems xs
  | .obj _ => "[object Object]"

def jsStringElems : List JsonVal → String
  | [] => ""
  | [x] => jsStringElem x
  | x :: y :: rest => jsStringElem x ++ "," ++ jsStringElems (y :: rest)

def jsStringElem : JsonVal → String
  | .null => ""
  | v => jsString v
end

mutual
/-- A model of `JSON.stringify(v, null, 2)`: structurally faithful (strings
quoted, arrays and objects delimited and comma-separated) but with the
pretty-printing whitespace and string escaping simplified.  The embedded
functions only ever carry this text around opaquely. -/
def jsonStringify : JsonVal → String
  | .str s => "\"" ++ s ++ "\""
  | .num n => toString n
  | .bool b => cond b "true" "false"
  | .null => "null"
  | .arr xs => "[" ++ jsonStringifyElems xs ++ "]"
  | .obj fs => "\x7b" ++ jsonStringifyFields fs ++ "\x7d"

def jsonStringifyElems : List JsonVal → String
  | [] => ""
  | [x] => jsonStringify x
  | x :: y :: rest => jsonStringify x ++ "," ++ jsonStringifyElems (y :: rest)

def jsonStringifyFields : List (String × JsonVal) → String
  | [] => ""
  | [(k, v)] => "\"" ++ k ++ "\":" ++ jsonStringify v
  | (k, v) :: f :: rest => "\"" ++ k ++ "\":" ++ jsonStringify v ++ "," ++ jsonStringifyFields (f :: rest)
end

/-- JavaScript `JSON.stringify(x, null, 2)` on an optional value: stringifying
`undefined` yields `undefined`, which templates render as the text
`"undefined"`. -/
def jsonStringifyOpt : Option JsonVal → String
  | some v => jsonStringify v
  | none => "undefined"

/-- The last segment of a slash-separated path with fallback to the whole
path, as in `path.split('/'); parts[parts.length - 1] || path`. -/
def lastPathSegment (path : String) : String :=
  let parts := path.splitOn "/"
  match parts.getLast? with
  | some last => if last = "" then path else last
  | none => path

/-- Whether `sub` occurs as a contiguous subsequence of `s`
(JavaScript `s.includes(sub)`). -/
def containsSub (s sub : List Char) : Bool :=
  match s with
  | [] => sub.isEmpty
  | _ :: t => sub.isPrefixOf s || containsSub t sub

/-- JavaScript `s.includes(sub)` on strings. -/
def strIncludes (s sub : String) : Bool :=
  containsSub s.data sub.data

/-- JavaScript `k.startsWith('_')`. -/
def startsWithUnderscore (k : String) : Bool :=
  match k.data with
  | '_' :: _ => true
  | _ => false

/-- A model of `new URL(url).hostname`: requires a `://` scheme separator and
a non-empty host, reading the host up to the first `/`, `?`, `#` or `:`;
`none` models the `URL` constructor throwing. -/
def urlHostname (url : String) : Option String :=
  match afterSchemeSep url.data with
  | some rest =>
    let host := rest.takeWhile (fun c => c ≠ '/' && c ≠ '?' && c ≠ '#' && c ≠ ':')
    if host.isEmpty then none else some (String.mk host)
  | none => none
where
  afterSchemeSep : List Char → Option (List Char)
    | ':' :: '/' :: '/' :: rest => some rest
    | _ :: rest => afterSchemeSep rest
    | [] => none

/-- JavaScript truncation `v.length > n ? v.slice(0, n) + '...' : v`. -/
def truncateDots (v : String) (n : Nat) : String :=
  if n < jsLen v then jsSlice v n ++ "..." else v

/-- The `file_path`-style cases of `getToolKeyParams`: show the last path
segment of the named field when the field is truthy. -/
def pathFieldParam (o : List (String × JsonVal)) (field : String) : Option String :=
  match objGet o field with
  | some v => if jsTruthy v then some (lastPathSegment (jsString v)) else none
  | none => none

/-- The ordered common-parameter names tried for unknown tools. -/
def paramPriority : List String :=
  ["file_path", "path", "url", "query", "command", "name", "title",
   "target", "message", "content", "text", "description", "input"]

/-- The priority-parameter loop of the default case of `getToolKeyParams`. -/
def tryPriorityParams (o : List (String × JsonVal)) : List String → Option String
  | [] => none
  | p :: rest =>
    match objGet o p with
    | some JsonVal.null => tryPriorityParams o rest
    | some v =>
        let value := jsString v
        if trimNonempty value then
          if strIncludes p "path" || p = "file_path" then some (lastPathSegment value)
          else if p = "url" then
            match urlHostname value with
            | some h => some h
            | none => some (jsSlice value 40)
          else some (truncateDots value 50)
        else tryPriorityParams o rest
    | none => tryPriorityParams o rest

/-- The final fallback of the default case of `getToolKeyParams`: the first
string-valued field with non-blank value whose key does not start with an
underscore. -/
def firstStringField : List (String × JsonVal) → Option String
  | [] => none
  | (k, v) :: rest =>
    match v with
    | .str s =>
      if trimNonempty s && !startsWithUnderscore k then some (truncateDots s 50)
      else firstStringField rest
    | _ => firstStringField rest

/-- The per-tool dispatch of `getToolKeyParams` (`MessageCard`), given the
fields of the (object-typed) `input`. -/
def getToolKeyParamsObj (toolName : String) (o : List (String × JsonVal)) : Option String :=
  match toolName with
  | "Read" | "Write" => pathFieldParam o "file_path"
  | "Edit" => pathFieldParam o "file_path"
  | "Bash" =>
    match objGet o "command" with
    | some v =>
      if jsTruthy v then some (truncateDots (jsString v) 60) else none
    | none => none
  | "Grep" =>
    match objGet o "pattern" with
    | some v =>
      if jsTruthy v then
        let truncated := truncateDots (jsString v) 40
        match objGet o "path" with
        | some pv =>
          if jsTruthy pv then
            some ("\"" ++ truncated ++ "\" in " ++ lastPathSegment (jsString pv))
          else some ("\"" ++ truncated ++ "\"")
        | none => some ("\"" ++ truncated ++ "\"")
      else none
    | none => none
  | "Glob" =>
    match objGet o "pattern" with
    | some v =>
      if jsTruthy v then
        let pat := jsString v
        match objGet o "path" with
        | some pv =>
          if jsTruthy pv then some (pat ++ " in " ++ lastPathSegment (jsString pv))
          else some pat
        | none => some pat
      else none
    | none => none
  | "Task" =>
    match objGet o "description" with
    | some v => if jsTruthy v then some (jsString v) else none
    | none => none
  | "WebFetch" =>
    match objGet o "url" with
    | some v =>
      if jsTruthy v then
        let url := jsString v
        match urlHostname url with
        | some h => some h
        | none => some (jsSlice url 40)
      else none
    | none => none
  | "TodoWrite" =>
    match objGet o "todos" with
    | some (JsonVal.arr xs) => some (toString xs.length ++ " item(s)")
    | _ => none
  | "AskUserQuestion" =>
    match objGet o "questions" with
    | some (JsonVal.arr (q :: _)) =>
      match q with
      | JsonVal.obj qf =>
        match objGet qf "question" with
        | some qv => some (truncateDots (jsString qv) 50)
        | none => none
      | _ => none
    | _ => none
  | "NotebookEdit" => pathFieldParam o "notebook_path"
  | _ =>
    match tryPriorityParams o paramPriority with
    | some r => some r
    | none => firstStringField o

/-- Embedding of `getToolKeyParams` (`MessageCard`): extracts a short label
for a tool invocation from its `input`.  A missing, falsy or non-object
`input` yields `null`; arrays pass the `typeof` guard but have no named
fields. -/
def getToolKeyParams (toolName : String) (input : Option JsonVal) : Option String :=
  match input with
  | some (JsonVal.obj o) => getToolKeyParamsObj toolName o
  | some (JsonVal.arr _) => getToolKeyParamsObj toolName []
  | _ => none

/-- The badge classification of a rendered message card (`Badge.tsx`). -/
inductive BadgeType where
  | user
  | assistant
  | tool
  | toolResult
  | hook
  | internal
  | thinking
deriving DecidableEq, Repr

/-- A collected `tool_use` item (`ToolUseItem` in `MessageCard`). -/
structure ToolUseItem where
  id : String
  name : String
  input : Option JsonVal

/-- A collected `tool_result` item (`ToolResultItem` in `MessageCard`). -/
structure ToolResultItem where
  tool_use_id : String
  content : Option JsonVal

/-- JavaScript `Map.set`: overwrite the value in place if the key exists,
append otherwise. -/
def mapSet {α : Type} : List (String × α) → String → α → List (String × α)
  | [], k, v => [(k, v)]
  | (k', v') :: rest, k, v =>
    if k' = k then (k, v) :: rest else (k', v') :: mapSet rest k v

/-- JavaScript `Map.get`: first match wins (keys are unique under
`mapSet`). -/
def mapGet {α : Type} : List (String × α) → String → Option α
  | [], _ => none
  | (k', v) :: rest, k => if k' = k then some v else mapGet rest k

/-- JavaScript `Map.has`. -/
def mapHas {α : Type} (m : List (String × α)) (k : String) : Bool :=
  (mapGet m k).isSome

/-- JavaScript `Set.add`: append if absent. -/
def setAdd (s : List String) (x : String) : List String :=
  if x ∈ s then s else s ++ [x]

/-- An element of `textContent` in the parsed message: a text node split into
code-fence segments, or a thinking node (which the source also pushes into
`textContent`). -/
inductive TextItem where
  | rendered (blocks : List ParsedCodeBlock)
  | thinkingBlock (t : Option String)

/-- An element of `toolUseContent` in the parsed message: a tool block
pairing an invocation with its (optional) result, or a standalone tool
result. -/
inductive ToolBlock where
  | paired (id : String) (name : Option String) (keyParams : Option String)
      (input : Option JsonVal) (result : Option ToolResultItem)
  | standalone (content : Option JsonVal)

/-- The `ToolInfo` header entries of a message card. -/
structure ToolInfo where
  name : String
  keyParams : Option String

/-- The result of `parseMessage` (`ParsedMessageContent` in
`MessageCard`). -/
structure ParsedMessageContent where
  textContent : List TextItem
  toolUseContent : List ToolBlock
  badgeType : BadgeType
  toolNames : List String
  toolInfos : List ToolInfo

/-- The mutable state threaded through the second pass of `parseMessage`:
the accumulated render output plus the `processedToolIds` set. -/
structure PMState where
  textContent : List TextItem
  toolUseContent : List ToolBlock
  badgeType : BadgeType
  toolNames : List String
  toolInfos : List ToolInfo
  processed : List String

/-- One step of the first pass of `parseMessage`, recording a `tool_use` or
`tool_result` item with a truthy id into the local maps. -/
def localMapsStep (maps : List (String × ToolUseItem) × List (String × ToolResultItem))
    (item : ContentItem) : List (String × ToolUseItem) × List (String × ToolResultItem) :=
  match item with
  | .toolUse (some i) name input =>
    if i ≠ "" then (mapSet maps.1 i ⟨i, jsOrStr name "Unknown", input⟩, maps.2) else maps
  | .toolResult (some t) c =>
    if t ≠ "" then (maps.1, mapSet maps.2 t ⟨t, c⟩) else maps
  | _ => maps

/-- First pass of `parseMessage`: collect the `tool_use` and `tool_result`
items of this message into the two local maps. -/
def buildLocalMaps (items : List ContentItem) :
    List (String × ToolUseItem) × List (String × ToolResultItem) :=
  items.foldl localMapsStep ([], [])

/-- One iteration of the second pass of `parseMessage`, processing a single
content item against the local maps and the optional external
(cross-message) tool-result map. -/
def parseStep (tuMap : List (String × ToolUseItem)) (itrMap : List (String × ToolResultItem))
    (ext : Option (List (String × ToolResultItem))) (st : PMState) (item : ContentItem) :
    PMState :=
  match item with
  | .str s =>
    { st with textContent := st.textContent ++ [.rendered (parseMarkdownCodeBlocks s)] }
  | .text t =>
    { st with textContent := st.textContent ++ [.rendered (parseMarkdownCodeBlocks (jsOrStr t ""))] }
  | .toolUse id name input =>
    let toolName := jsOrStr name "Unknown"
    let keyParams := getToolKeyParams toolName input
    let st :=
      { st with
        toolNames :=
          match name with
          | some nm => if nm ≠ "" then st.toolNames ++ [nm] else st.toolNames
          | none => st.toolNames,
        toolInfos := st.toolInfos ++ [ToolInfo.mk toolName keyParams] }
    let st :=
      match id with
      | some i =>
        if i ≠ "" && !st.processed.contains i then
          let matchingResult :=
            match mapGet itrMap i with
            | some r => some r
            | none =>
              match ext with
              | some e => mapGet e i
              | none => none
          { st with
            processed := st.processed ++ [i],
            toolUseContent := st.toolUseContent ++
              [ToolBlock.paired i name keyParams input matchingResult] }
        else st
      | none => st
    { st with badgeType := .tool }
  | .toolResult toolUseId c =>
    let skip :=
      match toolUseId, ext with
      | some t, some e => t ≠ "" && mapHas e t
      | _, _ => false
    if skip then st
    else
      match toolUseId with
      | some t =>
        if t ≠ "" && !mapHas tuMap t && !st.processed.contains t then
          { st with
            processed := st.processed ++ [t],
            toolUseContent := st.toolUseContent ++ [.standalone c],
            badgeType := .toolResult }
        else st
      | none => st
  | .thinking t =>
    { st with textContent := st.textContent ++ [.thinkingBlock t], badgeType := .thinking }
  | .other => st

/-- Embedding of `parseMessage` (`MessageCard`): classifies a record's
content units, correlating each tool invocation with a result from this
record's local map or from the external cross-message map. -/
def parseMessage (message : ChatMessage)
    (externalToolResults : Option (List (String × ToolResultItem))) : ParsedMessageContent :=
  let badge0 := if message.type = MsgType.user then BadgeType.user else BadgeType.assistant
  let st0 : PMState := ⟨[], [], badge0, [], [], []⟩
  let st :=
    match contentOf message with
    | some (MessageContent.str s) =>
      { st0 with textContent := [TextItem.rendered (parseMarkdownCodeBlocks s)] }
    | some (MessageContent.items items) =>
      let maps := buildLocalMaps items
      items.foldl (parseStep maps.1 maps.2 externalToolResults) st0
    | none => st0
  let badge1 :=
    match message.internalMessageType with
    | some imt =>
      if imt ≠ "" then (if imt = "hook" then BadgeType.hook else BadgeType.internal)
      else st.badgeType
    | none => st.badgeType
  let badge2 := if message.isMeta then BadgeType.internal else badge1
  ⟨st.textContent, st.toolUseContent, badge2, st.toolNames, st.toolInfos⟩

/-- Whether a content item is a `tool_result` object. -/
def isToolResultItem : ContentItem → Bool
  | .toolResult _ _ => true
  | _ => false

/-- Whether a content item is a `tool_use` object. -/
def isToolUseItem : ContentItem → Bool
  | .toolUse _ _ _ => true
  | _ => false

/-- One item step of the `toolResultMap` scan (`ChatSessionView`). -/
def trmItem (acc : List (String × ToolResultItem)) (item : ContentItem) :
    List (String × ToolResultItem) :=
  match item with
  | .toolResult (some t) c => if t ≠ "" then mapSet acc t ⟨t, c⟩ else acc
  | _ => acc

/-- One record step of the `toolResultMap` scan. -/
def trmMsg (acc : List (String × ToolResultItem)) (m : ChatMessage) :
    List (String × ToolResultItem) :=
  match contentOf m with
  | some (MessageContent.items items) => items.foldl trmItem acc
  | _ => acc

/-- Embedding of the `toolResultMap` memo of `ChatSessionView`: maps each
`tool_use_id` found in any `tool_result` unit of the session to that unit's
payload (`Map.set`, so a later unit overwrites an earlier one). -/
def toolResultMap (messages : List ChatMessage) : List (String × ToolResultItem) :=
  messages.foldl trmMsg []

/-- One item step of the `aggregatedToolResultIds` scan. -/
def aggItem (trm : List (String × ToolResultItem)) (acc : List String) (item : ContentItem) :
    List String :=
  match item with
  | .toolUse (some i) _ _ => if i ≠ "" && mapHas trm i then setAdd acc i else acc
  | _ => acc

/-- One record step of the `aggregatedToolResultIds` scan. -/
def aggMsg (trm : List (String × ToolResultItem)) (acc : List String) (m : ChatMessage) :
    List String :=
  match contentOf m with
  | some (MessageContent.items items) => items.foldl (aggItem trm) acc
  | _ => acc

/-- Embedding of the `aggregatedToolResultIds` memo of `ChatSessionView`:
the ids of `tool_use` units that have a matching entry in `toolResultMap`. -/
def aggregatedToolResultIds (messages : List ChatMessage) : List String :=
  messages.foldl (aggMsg (toolResultMap messages)) []

/-- Embedding of `isMessageFullyAggregated` (`ChatSessionView`): a message is
hidden when it contains at least one `tool_result` item, every `tool_result`
item's id is aggregated, and it contains nothing but `tool_result` items. -/
def isMessageFullyAggregated (messages : List ChatMessage) (m : ChatMessage) : Bool :=
  match contentOf m with
  | some (MessageContent.items items) =>
    let toolResultItems := items.filter isToolResultItem
    if toolResultItems.isEmpty then false
    else
      let agg := aggregatedToolResultIds messages
      let allAggregated := toolResultItems.all fun item =>
        match item with
        | .toolResult (some t) _ => t ≠ "" && agg.contains t
        | _ => false
      let hasOtherContent := items.any fun item => !isToolResultItem item
      allAggregated && !hasOtherContent
  | _ => false

/-- Embedding of `filteredMessages` (`ChatSessionView`) with an empty search
term: drop the messages that are fully aggregated. -/
def filteredMessages (messages : List ChatMessage) : List ChatMessage :=
  messages.filter fun m => !isMessageFullyAggregated messages m

/-- The resolved session view: `ChatSessionView` renders each surviving
message through `MessageCard` with `externalToolResults := toolResultMap`. -/
def sessionView (messages : List ChatMessage) : List ParsedMessageContent :=
  (filteredMessages messages).map fun m => parseMessage m (some (toolResultMap messages))

/-- Embedding of `getFirstUserMessage` (`getChatSessions.ts`): previews the
first non-meta, non-internal user record, but only when its content is a bare
string. -/
def getFirstUserMessage (messages : List ChatMessage) : String :=
  match messages.find? (fun msg =>
      msg.type == MsgType.user && !msg.isMeta && !truthyStr msg.internalMessageType) with
  | some firstUserMessage =>
    match firstUserMessage.message with
    | some body =>
      match body.content with
      | some (MessageContent.str content) =>
        jsSlice content 100 ++ (if 100 < jsLen content then "..." else "")
      | _ => "No user message found"
    | none => "No user message found"
  | none => "No user message found"

/-- One raw line of a log file, classified the way the stream reader treats
it: blank after `trim`, non-blank but rejected by `JSON.parse`, or parsed
into a record. -/
inductive LogLine where
  | blank
  | unparsable
  | record (msg : ChatMessage)

/-- The metadata accumulated by `readSessionMetadata` while streaming. -/
structure SessionMetadata where
  firstMessages : List ChatMessage
  lastMessage : Option ChatMessage
  lineCount : Nat

/-- The `maxFirstLines` constant of `readSessionMetadata`. -/
def maxFirstLines : Nat := 10

/-- One `line` event of `readSessionMetadata`: skip blank lines, count the
rest, retain parsed records among the first ten counted lines and remember
the last parsed record. -/
def readStep (acc : SessionMetadata) (l : LogLine) : SessionMetadata :=
  match l with
  | .blank => acc
  | .unparsable => { acc with lineCount := acc.lineCount + 1 }
  | .record msg =>
    let lineCount := acc.lineCount + 1
    { firstMessages :=
        if lineCount ≤ maxFirstLines then acc.firstMessages ++ [msg] else acc.firstMessages,
      lastMessage := some msg,
      lineCount := lineCount }

/-- Embedding of `readSessionMetadata` (`getChatSessions.ts`): stream the
file's lines and resolve `null` when no line was counted or no record was
parsed among the first ten counted lines. -/
def readSessionMetadata (lines : List LogLine) : Option SessionMetadata :=
  let acc := lines.foldl readStep ⟨[], none, 0⟩
  if acc.lineCount = 0 || acc.firstMessages.isEmpty then none else some acc

/-- A file of a project directory: its name and its classified lines. -/
structure FileEntry where
  name : String
  lines : List LogLine

/-- A project directory: its name and its files in directory-listing
order. -/
structure ProjectDirEntry where
  name : String
  files : List FileEntry

/-- The `ChatSessionSummary` record built per accepted file. -/
structure ChatSessionSummary where
  sessionId : String
  firstMessageTimestamp : String
  lastMessageTimestamp : String
  projectPath : String
  messageCount : Nat
  firstUserMessage : String
  cwd : String

/-- The `ProjectDirectorySummary` record of the built index. -/
structure ProjectDirectorySummary where
  path : String
  sessions : List ChatSessionSummary

/-- The per-file body of the `getChatSessions` loop: read the metadata, skip
files without it, without a usable header session id, or whose session id was
already seen; otherwise append the summary and mark the id seen.  The state
is the project's accumulated `sessions` list and the global `seenSessionIds`
set.  An empty `firstMessages` (impossible when the metadata is non-`null`)
is skipped, modelling the per-file `try/catch`. -/
def processFile (projectDir : String)
    (st : List ChatSessionSummary × List String) (file : FileEntry) :
    List ChatSessionSummary × List String :=
  match readSessionMetadata file.lines with
  | none => st
  | some metadata =>
    match metadata.firstMessages with
    | [] => st
    | first :: _ =>
      match first.sessionId with
      | some sessionId =>
        if sessionId = "" then st
        else if st.2.contains sessionId then st
        else
          (st.1 ++
            [{ sessionId := sessionId,
               firstMessageTimestamp := first.timestamp,
               lastMessageTimestamp := jsOrStr (metadata.lastMessage.map (·.timestamp)) first.timestamp,
               projectPath := projectDir,
               messageCount := metadata.lineCount,
               firstUserMessage := getFirstUserMessage metadata.firstMessages,
               cwd := first.cwd }],
           st.2 ++ [sessionId])
      | none => st

/-- The session comparator of `getChatSessions`, as the stable-sort order
predicate: `(a, b)` compare by `new Date(b).getTime() - new Date(a).getTime()`
with date parsing modelled by `g`. -/
def sessLe (g : String → Int) (a b : ChatSessionSummary) : Bool :=
  g b.lastMessageTimestamp - g a.lastMessageTimestamp ≤ 0

/-- The key of the project comparator: the first session's
`lastMessageTimestamp`, with `new Date(0).getTime() = 0` when the sessions
list is empty or the timestamp string is falsy. -/
def projLatest (g : String → Int) (p : ProjectDirectorySummary) : Int :=
  match p.sessions with
  | s :: _ => if s.lastMessageTimestamp = "" then 0 else g s.lastMessageTimestamp
  | [] => 0

/-- The project comparator of `getChatSessions`, as the stable-sort order
predicate. -/
def projLe (g : String → Int) (a b : ProjectDirectorySummary) : Bool :=
  projLatest g b - projLatest g a ≤ 0

/-- The per-project-directory body of the `getChatSessions` loop: filter the
`.jsonl` files, process them against the global seen set, and append the
project (with sessions sorted descending by last timestamp) when it accepted
at least one session. -/
def dirStep (g : String → Int) (st : List ProjectDirectorySummary × List String)
    (dir : ProjectDirEntry) : List ProjectDirectorySummary × List String :=
  let files := dir.files.filter fun f => f.name.endsWith ".jsonl"
  let res := files.foldl (processFile dir.name) ([], st.2)
  if res.1.isEmpty then (st.1, res.2)
  else (st.1 ++ [{ path := dir.name, sessions := res.1.mergeSort (sessLe g) }], res.2)

/-- Embedding of `getChatSessions` (`getChatSessions.ts`): `claudeDir` is
`none` when the root directory does not exist, otherwise the list of project
directories in directory-listing order.  `g` models
`new Date(s).getTime()`. -/
def getChatSessions (g : String → Int) (claudeDir : Option (List ProjectDirEntry)) :
    List ProjectDirectorySummary :=
  match claudeDir with
  | none => []
  | some projectDirs =>
    ((projectDirs.foldl (dirStep g) ([], [])).1).mergeSort (projLe g)

/-- The flattened text of one content item in an export
(`getMessageContent` in `exportSession.ts`). -/
def itemExportText : ContentItem → String
  | .str s => s
  | .text t => jsOrStr t ""
  | .toolUse _ name input =>
    "[Tool Use: " ++ (match name with | some nm => nm | none => "undefined") ++
      "]\n```json\n" ++ jsonStringifyOpt input ++ "\n```"
  | .toolResult _ c =>
    "[Tool Result]\n```\n" ++
      (match c with
       | some (JsonVal.str s) => s
       | some v => jsonStringify v
       | none => "undefined") ++ "\n```"
  | .thinking _ => ""
  | .other => ""

/-- Embedding of `getMessageContent` (`exportSession.ts`): flatten a record's
content to text, dropping empty pieces and joining with blank lines. -/
def getMessageContent (message : ChatMessage) : String :=
  match contentOf message with
  | some (MessageContent.str content) => content
  | some (MessageContent.items items) =>
    String.intercalate "\n\n" ((items.map itemExportText).filter (fun s => s ≠ ""))
  | none => ""

/-- Whether a record's content is an array containing at least one `tool_use`
or `tool_result` unit (the shared export filter predicate). -/
def hasToolContent (m : ChatMessage) : Bool :=
  match contentOf m with
  | some (MessageContent.items items) =>
    items.any fun i => isToolUseItem i || isToolResultItem i
  | _ => false

/-- The export format union `'markdown' | 'json'`. -/
inductive ExportFormat where
  | markdown
  | json
deriving DecidableEq, Repr

/-- The `ExportOptions` of `exportSession.ts`. -/
structure ExportOptions where
  format : ExportFormat
  includeToolCalls : Bool
  includeTimestamps : Bool

/-- One element of the `messages` array of the JSON document form. -/
structure ExportMessage where
  type : MsgType
  timestamp : String
  content : String
  formattedTime : Option String

/-- The JSON document built by `convertToJSON` (the embedding stops at the
document; `JSON.stringify` of the whole document is external
serialization). -/
structure ExportDoc where
  title : String
  exportedAt : String
  messageCount : Nat
  messages : List ExportMessage

/-- Embedding of `convertToJSON` (`exportSession.ts`).  `exportedAt` stands
for `new Date().toISOString()` and `formatTimestamp` for the locale
formatter, both impure in the source and passed in here. -/
def convertToJSON (messages : List ChatMessage) (sessionTitle : String)
    (options : ExportOptions) (exportedAt : String) (formatTimestamp : String → String) :
    ExportDoc :=
  let filtered :=
    if options.includeToolCalls then messages
    else messages.filter fun m => !hasToolContent m
  { title := sessionTitle,
    exportedAt := exportedAt,
    messageCount := filtered.length,
    messages := filtered.map fun message =>
      { type := message.type,
        timestamp := message.timestamp,
        content := getMessageContent message,
        formattedTime :=
          if options.includeTimestamps then some (formatTimestamp message.timestamp)
          else none } }

/-- Whether a log line is blank (skipped before counting). -/
def LogLine.isBlank : LogLine → Bool
  | .blank => true
  | _ => false

/-- The record carried by a log line, when `JSON.parse` succeeded on it. -/
def LogLine.parsed : LogLine → Option ChatMessage
  | .record msg => some msg
  | _ => none

/-- The non-blank lines of a file, in order. -/
def nonBlankLines (lines : List LogLine) : List LogLine :=
  lines.filter fun l => !l.isBlank

/-- Whether a list of content items contains no tool unit. -/
def noToolItems (items : List ContentItem) : Bool :=
  items.all fun i => !(isToolUseItem i || isToolResultItem i)

/-- Whether a record contains no tool unit (its content is not an array, or
is an array free of `tool_use` and `tool_result` items). -/
def noToolRecord (m : ChatMessage) : Bool :=
  match contentOf m with
  | some (MessageContent.items items) => noToolItems items
  | _ => true

/-- The keyed `tool_result` payload carried by one content item, when the
item is a `tool_result` with a truthy id. -/
def resultUnitOf : ContentItem → Option (String × ToolResultItem)
  | ContentItem.toolResult (some t) c => if t ≠ "" then some (t, ⟨t, c⟩) else none
  | _ => none

/-- The keyed `tool_result` units of one record, in item order. -/
def msgResultUnits (m : ChatMessage) : List (String × ToolResultItem) :=
  match contentOf m with
  | some (MessageContent.items items) => items.filterMap resultUnitOf
  | _ => []

/-- All `tool_result` units of a session with a truthy `tool_use_id`, keyed
by that id, in record-scan order. -/
def resultUnits (messages : List ChatMessage) : List (String × ToolResultItem) :=
  messages.flatMap msgResultUnits

/-- The header session id under which `processFile` would register a file:
the `sessionId` of the first retained record, when the metadata is usable and
the id is a truthy string. -/
def sessionIdOfFile (file : FileEntry) : Option String :=
  match readSessionMetadata file.lines with
  | some metadata =>
    match metadata.firstMessages with
    | first :: _ =>
      match first.sessionId with
      | some sid => if sid = "" then none else some sid
      | none => none
    | [] => none
  | none => none

/-- All session ids of the built index, across every project entry. -/
def indexSessionIds (projects : List ProjectDirectorySummary) : List String :=
  (projects.flatMap fun p => p.sessions).map fun s => s.sessionId

/-- Whether a character list contains a triple-backtick fence anywhere. -/
def hasFence : List Char → Bool
  | [] => false
  | c :: rest => isFenceAt (c :: rest) || hasFence rest

/-- C8 counterexample: an input whose `command` field is present but holds
the empty string is falsy in the `if (inputObj.command)` guard, so the code
returns `null` while the claim demands the (empty) command itself as the
label. -/
theorem bash_keyParams_empty_command_counterexample :
    getToolKeyParams "Bash" (some (JsonVal.obj [("command", JsonVal.str "")])) = none ∧
    getToolKeyParams "Bash" (some (JsonVal.obj [("command", JsonVal.str "")])) ≠ some "" := by
  refine ⟨rfl, ?_⟩
  intro h
  rw [show getToolKeyParams "Bash" (some (JsonVal.obj [("command", JsonVal.str "")])) = none
    from rfl] at h
  exact Option.noConfusion h

/-- C8 (amended): for a Bash invocation whose input has a `command` field
holding a non-empty string, the key-parameter label is the command itself
when it is at most 60 characters, and its first 60 characters followed by
`...` otherwise. -/
theorem bash_keyParams_truncation (o : List (String × JsonVal)) (cmd : String)
    (hcmd : objGet o "command" = some (JsonVal.str cmd)) (hne : cmd ≠ "") :
    getToolKeyParams "Bash" (some (JsonVal.obj o)) =
      some (if 60 < jsLen cmd then jsSlice cmd 60 ++ "..." else cmd) := by
  simp [getToolKeyParams, getToolKeyParamsObj, hcmd, jsTruthy, hne, jsString, truncateDots]

/-- C8 witness: a 100-character command produces its 60-character prefix
followed by an ellipsis. -/
theorem bash_keyParams_truncation_witness :
    objGet [("command", JsonVal.str (String.mk (List.replicate 100 'a')))] "command" =
      some (JsonVal.str (String.mk (List.replicate 100 'a'))) ∧
    String.mk (List.replicate 100 'a') ≠ "" ∧
    getToolKeyParams "Bash"
        (some (JsonVal.obj [("command", JsonVal.str (String.mk (List.replicate 100 'a')))])) =
      some (jsSlice (String.mk (List.replicate 100 'a')) 60 ++ "...") := by
  refine ⟨rfl, by decide, ?_⟩
  rw [bash_keyParams_truncation [("command", JsonVal.str (String.mk (List.replicate 100 'a')))]
    (String.mk (List.replicate 100 'a')) rfl (by decide)]
  decide

/-- C10: whenever the first user record that is neither meta nor internal has
a content that is not a bare string, `getFirstUserMessage` returns the fixed
placeholder, regardless of any other record. -/
theorem getFirstUserMessage_placeholder (messages : List ChatMessage) (m : ChatMessage)
    (hfind : messages.find? (fun msg =>
        msg.type == MsgType.user && !msg.isMeta && !truthyStr msg.internalMessageType) = some m)
    (hcontent : ∀ s, contentOf m ≠ some (MessageContent.str s)) :
    getFirstUserMessage messages = "No user message found" := by
  unfold getFirstUserMessage
  rw [hfind]
  cases hm : m.message with
  | none => simp [hm]
  | some body =>
    cases hb : body.content with
    | none => simp [hm, hb]
    | some mc =>
      cases mc with
      | str s => exact absurd (by simp [contentOf, hm, hb]) (hcontent s)
      | items l => simp [hm, hb]

/-- C10 witness: the first qualifying user record has array content with a
text unit, a later user record has bare-string content, and the preview is
still the placeholder. -/
theorem getFirstUserMessage_placeholder_witness :
    [ChatMessage.mk MsgType.user none "" "" false none
        (some ⟨some (MessageContent.items [ContentItem.text (some "hi")])⟩),
     ChatMessage.mk MsgType.user none "" "" false none
        (some ⟨some (MessageContent.str "hello")⟩)].find? (fun msg =>
        msg.type == MsgType.user && !msg.isMeta && !truthyStr msg.internalMessageType) =
      some (ChatMessage.mk MsgType.user none "" "" false none
        (some ⟨some (MessageContent.items [ContentItem.text (some "hi")])⟩)) ∧
    getFirstUserMessage
      [ChatMessage.mk MsgType.user none "" "" false none
          (some ⟨some (MessageContent.items [ContentItem.text (some "hi")])⟩),
       ChatMessage.mk MsgType.user none "" "" false none
          (some ⟨some (MessageContent.str "hello")⟩)] = "No user message found" := by
  refine ⟨rfl, ?_⟩
  exact getFirstUserMessage_placeholder _ _ rfl (fun s h => by
    rw [show contentOf (ChatMessage.mk MsgType.user none "" "" false none
      (some ⟨some (MessageContent.items [ContentItem.text (some "hi")])⟩)) =
      some (MessageContent.items [ContentItem.text (some "hi")]) from rfl] at h
    exact absurd (Option.some.inj h) (by intro hh; cases hh))

@[simp] theorem nonBlankLines_nil : nonBlankLines [] = [] := rfl

@[simp] theorem nonBlankLines_cons_blank (rest : List LogLine) :
    nonBlankLines (LogLine.blank :: rest) = nonBlankLines rest := rfl

@[simp] theorem nonBlankLines_cons_unparsable (rest : List LogLine) :
    nonBlankLines (LogLine.unparsable :: rest) = LogLine.unparsable :: nonBlankLines rest := rfl

@[simp] theorem nonBlankLines_cons_record (msg : ChatMessage) (rest : List LogLine) :
    nonBlankLines (LogLine.record msg :: rest) = LogLine.record msg :: nonBlankLines rest := rfl

/-- Characterization of the metadata fold: the final line count adds the
number of non-blank lines, and the retained first messages are the records
parsed among the first `maxFirstLines - acc.lineCount` non-blank lines. -/
theorem readFold_characterization (lines : List LogLine) (acc : SessionMetadata) :
    (lines.foldl readStep acc).lineCount = acc.lineCount + (nonBlankLines lines).length ∧
    (lines.foldl readStep acc).firstMessages =
      acc.firstMessages ++
        ((nonBlankLines lines).take (maxFirstLines - acc.lineCount)).filterMap LogLine.parsed := by
  induction lines generalizing acc with
  | nil => simp
  | cons l rest ih =>
    cases l with
    | blank =>
      simpa [readStep] using ih acc
    | unparsable =>
      have h := ih { acc with lineCount := acc.lineCount + 1 }
      simp only [List.foldl_cons, readStep, nonBlankLines_cons_unparsable]
      refine ⟨by rw [h.1]; simp; omega, ?_⟩
      rw [h.2]
      rcases Nat.eq_zero_or_pos (maxFirstLines - acc.lineCount) with h0 | hpos
      · rw [h0, show maxFirstLines - (acc.lineCount + 1) = 0 by omega]
        simp
      · obtain ⟨k, hk⟩ : ∃ k, maxFirstLines - acc.lineCount = k + 1 :=
          ⟨maxFirstLines - acc.lineCount - 1, by omega⟩
        rw [hk, show maxFirstLines - (acc.lineCount + 1) = k by omega,
          List.take_succ_cons]
        simp [LogLine.parsed]
    | record msg =>
      have h := ih ⟨if acc.lineCount + 1 ≤ maxFirstLines then acc.firstMessages ++ [msg]
          else acc.firstMessages, some msg, acc.lineCount + 1⟩
      simp only [List.foldl_cons, readStep, nonBlankLines_cons_record]
      refine ⟨by rw [h.1]; simp; omega, ?_⟩
      rw [h.2]
      rcases Nat.eq_zero_or_pos (maxFirstLines - acc.lineCount) with h0 | hpos
      · rw [h0, show maxFirstLines - (acc.lineCount + 1) = 0 by omega,
          if_neg (by omega)]
        simp
      · obtain ⟨k, hk⟩ : ∃ k, maxFirstLines - acc.lineCount = k + 1 :=
          ⟨maxFirstLines - acc.lineCount - 1, by omega⟩
        rw [hk, show maxFirstLines - (acc.lineCount + 1) = k by omega,
          if_pos (by omega), List.take_succ_cons]
        simp [LogLine.parsed]

/-- C6: the metadata extractor returns `none` exactly when the file has no
non-blank line or none of its first ten non-blank lines parses; a file with
`none` metadata is skipped by the index builder without touching its state. -/
theorem readSessionMetadata_none_iff (lines : List LogLine)
    (projectDir : String) (st : List ChatSessionSummary × List String) (file : FileEntry) :
    (readSessionMetadata lines = none ↔
      (nonBlankLines lines).length = 0 ∨
        ∀ l ∈ (nonBlankLines lines).take 10, LogLine.parsed l = none) ∧
    (readSessionMetadata file.lines = none → processFile projectDir st file = st) := by
  constructor
  · have h := readFold_characterization lines ⟨[], none, 0⟩
    have h1 : (lines.foldl readStep ⟨[], none, 0⟩).lineCount = (nonBlankLines lines).length := by
      simpa using h.1
    have h2 : (lines.foldl readStep ⟨[], none, 0⟩).firstMessages =
        ((nonBlankLines lines).take 10).filterMap LogLine.parsed := by
      simpa [maxFirstLines] using h.2
    unfold readSessionMetadata
    by_cases hc : (lines.foldl readStep ⟨[], none, 0⟩).lineCount = 0 ||
        (lines.foldl readStep ⟨[], none, 0⟩).firstMessages.isEmpty
    · simp only [hc, if_true]
      simp only [Bool.or_eq_true, decide_eq_true_eq, List.isEmpty_iff] at hc
      simp only [h1, h2] at hc
      simp only [List.filterMap_eq_nil_iff] at hc
      simpa using hc
    · simp only [hc, if_false]
      simp only [Bool.or_eq_true, decide_eq_true_eq, List.isEmpty_iff, not_or] at hc
      simp only [h1, h2] at hc
      simp only [List.filterMap_eq_nil_iff] at hc
      constructor
      · intro hsome; cases hsome
      · intro hor
        rcases hor with h0 | hall
        · exact absurd h0 hc.1
        · exact absurd hall (by simpa using hc.2)
  · intro hnone
    unfold processFile
    rw [hnone]

/-- C6 witness: a file consisting of one blank line and one unparsable line
yields no metadata and leaves the index builder's state untouched. -/
theorem readSessionMetadata_none_iff_witness :
    readSessionMetadata [LogLine.blank, LogLine.unparsable] = none ∧
    processFile "proj1" ([], ["other"])
        (FileEntry.mk "a.jsonl" [LogLine.blank, LogLine.unparsable]) = ([], ["other"]) := by
  refine ⟨rfl, ?_⟩
  exact (readSessionMetadata_none_iff [] "proj1" ([], ["other"])
    (FileEntry.mk "a.jsonl" [LogLine.blank, LogLine.unparsable])).2 rfl

/-- Lookup after a `Map.set`: the freshly set key wins, other keys are
unchanged. -/
theorem mapGet_mapSet {α : Type} (m : List (String × α)) (k q : String) (v : α) :
    mapGet (mapSet m k v) q = if k = q then some v else mapGet m q := by
  induction m with
  | nil => simp [mapSet, mapGet]
  | cons p rest ih =>
    obtain ⟨k0, v0⟩ := p
    by_cases h0 : k0 = k
    · subst h0
      simp only [mapSet, if_pos rfl, mapGet]
      by_cases hq : k0 = q
      · simp [hq]
      · simp [hq, mapGet]
    · simp only [mapSet, if_neg h0, mapGet]
      by_cases hq : k0 = q
      · subst hq
        simp [show ¬ (k = k0) from fun h => h0 h.symm]
      · simp [hq, ih]

/-- Lookup after folding `Map.set` over a list of keyed values: the last
occurrence of the key wins, falling back to the accumulator. -/
theorem mapGet_foldl_mapSet {α : Type} (l : List (String × α)) (acc : List (String × α))
    (q : String) :
    mapGet (l.foldl (fun a p => mapSet a p.1 p.2) acc) q =
      ((l.reverse.find? (fun p => p.1 = q)).map Prod.snd).or (mapGet acc q) := by
  induction l generalizing acc with
  | nil => simp
  | cons p rest ih =>
    simp only [List.foldl_cons, List.reverse_cons]
    rw [ih, List.find?_append, mapGet_mapSet]
    by_cases hpq : p.1 = q
    · rcases hfind : rest.reverse.find? (fun r => decide (r.1 = q)) with _ | p' <;>
        simp [hfind, hpq, List.find?_singleton, Option.or]
    · rcases hfind : rest.reverse.find? (fun r => decide (r.1 = q)) with _ | p' <;>
        simp [hfind, hpq, List.find?_singleton, Option.or]
/-- The cross-message map is the fold of `Map.set` over the session's keyed
`tool_result` units. -/
theorem toolResultMap_eq_foldl (messages : List ChatMessage) :
    ∀ acc, messages.foldl trmMsg acc =
      (resultUnits messages).foldl (fun a p => mapSet a p.1 p.2) acc := by
  have hitem : ∀ (items : List ContentItem) (acc : List (String × ToolResultItem)),
      items.foldl trmItem acc =
        (items.filterMap resultUnitOf).foldl (fun a p => mapSet a p.1 p.2) acc := by
    intro items
    induction items with
    | nil => intro acc; rfl
    | cons item rest ih =>
      intro acc
      cases item with
      | toolResult t c =>
        cases t with
        | none => simpa [trmItem, resultUnitOf] using ih acc
        | some t0 =>
          by_cases ht : t0 = ""
          · subst ht
            simpa [trmItem, resultUnitOf] using ih acc
          · simp only [List.foldl_cons, trmItem, if_pos ht,
              List.filterMap_cons]
            rw [show resultUnitOf (ContentItem.toolResult (some t0) c) =
              some (t0, ⟨t0, c⟩) from by simp [resultUnitOf, ht]]
            simpa using ih (mapSet acc t0 ⟨t0, c⟩)
      | str s => simpa [trmItem, resultUnitOf] using ih acc
      | text s => simpa [trmItem, resultUnitOf] using ih acc
      | toolUse a b c => simpa [trmItem, resultUnitOf] using ih acc
      | thinking s => simpa [trmItem, resultUnitOf] using ih acc
      | other => simpa [trmItem, resultUnitOf] using ih acc
  have hmsg : ∀ (m : ChatMessage) (acc : List (String × ToolResultItem)),
      trmMsg acc m = (msgResultUnits m).foldl (fun a p => mapSet a p.1 p.2) acc := by
    intro m acc
    unfold trmMsg msgResultUnits
    cases contentOf m with
    | none => rfl
    | some mc =>
      cases mc with
      | str s => rfl
      | items l => exact hitem l acc
  intro acc
  induction messages generalizing acc with
  | nil => rfl
  | cons m rest ih =>
    simp only [List.foldl_cons, resultUnits, List.flatMap_cons, List.foldl_append]
    rw [hmsg m acc]
    exact ih _

/-- C4 (amended): the cross-message `toolResultMap` maps a `toolUseId` to the
payload of the last `tool_result` unit with that (truthy) id in record-scan
order — `Map.set` overwrites, so a later result replaces an earlier one. -/
theorem toolResultMap_last_result_wins (messages : List ChatMessage) (q : String) :
    mapGet (toolResultMap messages) q =
      ((resultUnits messages).reverse.find? (fun p => p.1 = q)).map Prod.snd := by
  unfold toolResultMap
  rw [toolResultMap_eq_foldl messages [], mapGet_foldl_mapSet]
  simp [mapGet]

/-- C4 counterexample: with two results for `t1`, the map holds the second
payload, not the first as claimed. -/
theorem toolResultMap_overwrites_counterexample :
    mapGet (toolResultMap [ChatMessage.mk MsgType.user none "" "" false none
        (some ⟨some (MessageContent.items
          [ContentItem.toolResult (some "t1") (some (JsonVal.str "first")),
           ContentItem.toolResult (some "t1") (some (JsonVal.str "second"))])⟩)]) "t1" =
      some ⟨"t1", some (JsonVal.str "second")⟩ ∧
    mapGet (toolResultMap [ChatMessage.mk MsgType.user none "" "" false none
        (some ⟨some (MessageContent.items
          [ContentItem.toolResult (some "t1") (some (JsonVal.str "first")),
           ContentItem.toolResult (some "t1") (some (JsonVal.str "second"))])⟩)]) "t1" ≠
      some ⟨"t1", some (JsonVal.str "first")⟩ := by
  refine ⟨rfl, ?_⟩
  intro h
  rw [show mapGet (toolResultMap [ChatMessage.mk MsgType.user none "" "" false none
      (some ⟨some (MessageContent.items
        [ContentItem.toolResult (some "t1") (some (JsonVal.str "first")),
         ContentItem.toolResult (some "t1") (some (JsonVal.str "second"))])⟩)]) "t1" =
    some ⟨"t1", some (JsonVal.str "second")⟩ from rfl] at h
  simp at h

/-- When the regex never matches, the fence loop returns no blocks and leaves
the whole input unconsumed. -/
theorem fenceLoop_of_none (fuel : Nat) (cs : List Char) (h : findCodeFence cs = none) :
    fenceLoop fuel cs = ([], cs) := by
  cases fuel with
  | zero => rfl
  | succ fuel => rw [fenceLoop, h]

/-- Unfolding of the fence loop on a successful match. -/
theorem fenceLoop_of_some (fuel : Nat) (cs before : List Char) (lang : Option String)
    (code rest : List Char) (h : findCodeFence cs = some (before, lang, code, rest)) :
    fenceLoop (fuel + 1) cs =
      ((if trimNonempty (String.mk before) then
          [{ type := SegKind.text, content := String.mk before, language := none }]
        else []) ++
        { type := SegKind.code, content := String.mk code, language := lang } ::
          (fenceLoop fuel rest).1,
       (fenceLoop fuel rest).2) := by
  rw [fenceLoop, h]

/-- Every `text` block emitted by the fence loop has a non-blank content:
both the pre-match text and (by induction) all later text blocks are guarded
by a trim test. -/
theorem fenceLoop_text_blocks (fuel : Nat) :
    ∀ (cs : List Char) (b : ParsedCodeBlock), b ∈ (fenceLoop fuel cs).1 →
      b.type = SegKind.text → trimNonempty b.content = true := by
  induction fuel with
  | zero => intro cs b hb; simp [fenceLoop] at hb
  | succ fuel ih =>
    intro cs b hb htype
    rcases hf : findCodeFence cs with _ | ⟨before, lang, code, rest⟩
    · rw [fenceLoop_of_none _ _ hf] at hb
      simp at hb
    · rw [fenceLoop_of_some fuel cs before lang code rest hf] at hb
      dsimp only at hb
      by_cases hpre : trimNonempty (String.mk before)
      · simp [hpre] at hb
        rcases hb with hb | hb | hb
        · subst hb
          exact hpre
        · subst hb; simp at htype
        · exact ih rest b hb htype
      · simp [hpre] at hb
        rcases hb with hb | hb
        · subst hb; simp at htype
        · exact ih rest b hb htype

/-- Without a triple-backtick fence anywhere, the fence regex never
matches. -/
theorem findCodeFence_eq_none_of_no_fence (cs : List Char) (h : hasFence cs = false) :
    findCodeFence cs = none := by
  induction cs with
  | nil => rfl
  | cons c rest ih =>
    rw [hasFence, Bool.or_eq_false_iff] at h
    rw [findCodeFence]
    rw [show matchFenceOpen (c :: rest) = none from by
      unfold matchFenceOpen; rw [h.1]; rfl]
    rw [ih h.2]

/-- A string of whitespace contains no fence: a backtick is not
whitespace. -/
theorem hasFence_eq_false_of_whitespace (cs : List Char)
    (h : ∀ c ∈ cs, c.isWhitespace = true) : hasFence cs = false := by
  induction cs with
  | nil => rfl
  | cons c rest ih =>
    rw [hasFence, Bool.or_eq_false_iff]
    refine ⟨?_, ih fun d hd => h d (List.mem_cons_of_mem _ hd)⟩
    cases rest with
    | nil => rfl
    | cons c2 rest2 =>
      cases rest2 with
      | nil => rfl
      | cons c3 rest3 =>
        have hc : c.isWhitespace = true := h c (List.mem_cons_self ..)
        rw [isFenceAt]
        have : ¬ (c = btick) := by
          intro hb
          rw [hb] at hc
          exact absurd hc (by decide)
        simp [this]

/-- C9: `parseMarkdownCodeBlocks` never returns a whitespace-only text block;
a whitespace-only input yields no blocks; and a fence-free input with some
non-whitespace character yields exactly one text block holding the entire
input. -/
theorem parseMarkdownCodeBlocks_spec (text : String) :
    (∀ b ∈ parseMarkdownCodeBlocks text, b.type = SegKind.text →
      trimNonempty b.content = true) ∧
    (trimNonempty text = false → parseMarkdownCodeBlocks text = []) ∧
    (hasFence text.data = false → trimNonempty text = true →
      parseMarkdownCodeBlocks text =
        [{ type := SegKind.text, content := text, language := none }]) := by
  refine ⟨?_, ?_, ?_⟩
  · intro b hb htype
    unfold parseMarkdownCodeBlocks at hb
    rcases hrec : fenceLoop text.data.length text.data with ⟨blocks, rem⟩
    rw [hrec] at hb
    dsimp only at hb
    by_cases htail : !rem.isEmpty && trimNonempty (String.mk rem)
    · rw [if_pos htail] at hb
      by_cases hempty : (blocks ++
          [({ type := SegKind.text, content := String.mk rem, language := none } :
            ParsedCodeBlock)]).isEmpty && trimNonempty text
      · rw [if_pos hempty] at hb
        simp at hempty
      · rw [if_neg hempty] at hb
        rw [List.mem_append] at hb
        rcases hb with hb | hb
        · exact fenceLoop_text_blocks _ _ b (by rw [hrec]; exact hb) htype
        · rw [List.mem_singleton] at hb
          subst hb
          simp only [Bool.and_eq_true] at htail
          exact htail.2
    · rw [if_neg htail] at hb
      by_cases hempty : blocks.isEmpty && trimNonempty text
      · rw [if_pos hempty] at hb
        rw [List.mem_singleton] at hb
        subst hb
        simp only [Bool.and_eq_true] at hempty
        exact hempty.2
      · rw [if_neg hempty] at hb
        exact fenceLoop_text_blocks _ _ b (by rw [hrec]; exact hb) htype
  · intro hws
    have hnf : hasFence text.data = false := by
      apply hasFence_eq_false_of_whitespace
      intro c hc
      by_contra hcw
      have : trimNonempty text = true := by
        unfold trimNonempty
        rw [List.any_eq_true]
        exact ⟨c, hc, by simp [hcw]⟩
      rw [this] at hws; cases hws
    have hloop := fenceLoop_of_none text.data.length text.data
      (findCodeFence_eq_none_of_no_fence _ hnf)
    unfold parseMarkdownCodeBlocks
    rw [hloop]
    dsimp only
    have hmk : String.mk text.data = text := rfl
    rw [hmk]
    simp [hws]
  · intro hnf hnws
    have hloop := fenceLoop_of_none text.data.length text.data
      (findCodeFence_eq_none_of_no_fence _ hnf)
    unfold parseMarkdownCodeBlocks
    rw [hloop]
    dsimp only
    have hmk : String.mk text.data = text := rfl
    have hne : text.data.isEmpty = false := by
      rcases hdata : text.data with _ | ⟨c, rest⟩
      · unfold trimNonempty at hnws
        rw [hdata] at hnws
        cases hnws
      · rfl
    rw [hmk, hne]
    simp [hnws]

/-- C9 witness: a plain word yields one text block holding it, and a
whitespace-only string yields nothing. -/
theorem parseMarkdownCodeBlocks_spec_witness :
    hasFence ("hello").data = false ∧ trimNonempty "hello" = true ∧
    parseMarkdownCodeBlocks "hello" =
      [{ type := SegKind.text, content := "hello", language := none }] ∧
    trimNonempty "  \n " = false ∧ parseMarkdownCodeBlocks "  \n " = [] := by
  refine ⟨by decide, by decide, ?_, by decide, ?_⟩
  · exact (parseMarkdownCodeBlocks_spec "hello").2.2 (by decide) (by decide)
  · exact (parseMarkdownCodeBlocks_spec "  \n ").2.1 (by decide)

/-- C7: with `includeToolCalls = false`, the JSON document's `messageCount`
is the number of records with no tool unit, the `messages` array is exactly
the rendering of those records in order, and a record with bare-string
content always survives the filter. -/
theorem convertToJSON_spec (messages : List ChatMessage) (sessionTitle : String)
    (options : ExportOptions) (exportedAt : String) (formatTimestamp : String → String)
    (h : options.includeToolCalls = false) :
    (convertToJSON messages sessionTitle options exportedAt formatTimestamp).messageCount =
      (messages.filter fun m => !hasToolContent m).length ∧
    (convertToJSON messages sessionTitle options exportedAt formatTimestamp).messages =
      (messages.filter fun m => !hasToolContent m).map (fun message =>
        { type := message.type,
          timestamp := message.timestamp,
          content := getMessageContent message,
          formattedTime :=
            if options.includeTimestamps then some (formatTimestamp message.timestamp)
            else none }) ∧
    (∀ m ∈ messages, (∃ s, contentOf m = some (MessageContent.str s)) →
      m ∈ messages.filter fun m => !hasToolContent m) := by
  refine ⟨?_, ?_, ?_⟩
  · simp [convertToJSON, h]
  · simp [convertToJSON, h]
  · rintro m hm ⟨s, hs⟩
    rw [List.mem_filter]
    refine ⟨hm, ?_⟩
    simp [hasToolContent, hs]

/-- C7 witness: of a bare-string record and a tool-use record, only the
former is counted with `includeToolCalls = false`. -/
theorem convertToJSON_spec_witness :
    (ExportOptions.mk ExportFormat.json false true).includeToolCalls = false ∧
    (convertToJSON
        [ChatMessage.mk MsgType.user none "ts1" "" false none
          (some ⟨some (MessageContent.str "hi")⟩),
         ChatMessage.mk MsgType.assistant none "ts2" "" false none
          (some ⟨some (MessageContent.items
            [ContentItem.toolUse (some "t1") (some "Bash") none])⟩)]
        "title" (ExportOptions.mk ExportFormat.json false true) "now"
        (fun _ => "formatted")).messageCount = 1 := by
  refine ⟨rfl, ?_⟩
  rw [(convertToJSON_spec
    [ChatMessage.mk MsgType.user none "ts1" "" false none
      (some ⟨some (MessageContent.str "hi")⟩),
     ChatMessage.mk MsgType.assistant none "ts2" "" false none
      (some ⟨some (MessageContent.items
        [ContentItem.toolUse (some "t1") (some "Bash") none])⟩)]
    "title" (ExportOptions.mk ExportFormat.json false true) "now"
    (fun _ => "formatted") rfl).1]
  rfl

/-- C3 failing input: a session whose only record carries one `tool_result`
with an id matching no invocation anywhere.  The cross-message map contains
every truthy-id result by construction, so the session view suppresses the
unit entirely (no standalone block is ever emitted), while the same record
parsed without the external map does render the standalone block — the
suppression guard tests only map membership, not that the result was already
shown with a paired invocation. -/
theorem unmatched_toolResult_dropped :
    sessionView [ChatMessage.mk MsgType.user none "" "" false none
        (some ⟨some (MessageContent.items
          [ContentItem.toolResult (some "orphan") (some (JsonVal.str "out"))])⟩)] =
      [⟨[], [], BadgeType.user, [], []⟩] ∧
    (parseMessage (ChatMessage.mk MsgType.user none "" "" false none
        (some ⟨some (MessageContent.items
          [ContentItem.toolResult (some "orphan") (some (JsonVal.str "out"))])⟩))
        none).toolUseContent =
      [ToolBlock.standalone (some (JsonVal.str "out"))] :=
  ⟨rfl, rfl⟩

theorem noToolItems_no_result (items : List ContentItem) (h : noToolItems items = true) :
    ∀ item ∈ items, isToolResultItem item = false := by
  intro item hi
  unfold noToolItems at h
  rw [List.all_eq_true] at h
  have hh := h item hi
  simp only [Bool.not_eq_true', Bool.or_eq_false_iff] at hh
  exact hh.2

theorem noToolItems_no_use (items : List ContentItem) (h : noToolItems items = true) :
    ∀ item ∈ items, isToolUseItem item = false := by
  intro item hi
  unfold noToolItems at h
  rw [List.all_eq_true] at h
  have hh := h item hi
  simp only [Bool.not_eq_true', Bool.or_eq_false_iff] at hh
  exact hh.1

theorem trmItem_of_not_result (acc : List (String × ToolResultItem)) (item : ContentItem)
    (h : isToolResultItem item = false) : trmItem acc item = acc := by
  cases item <;> simp_all [trmItem, isToolResultItem]

theorem foldl_trmItem_of_no_result (items : List ContentItem)
    (h : ∀ item ∈ items, isToolResultItem item = false) :
    ∀ acc, items.foldl trmItem acc = acc := by
  induction items with
  | nil => intro acc; rfl
  | cons i rest ih =>
    intro acc
    rw [List.foldl_cons, trmItem_of_not_result acc i (h i (List.mem_cons_self ..))]
    exact ih (fun item hi => h item (List.mem_cons_of_mem _ hi)) acc

theorem trmMsg_of_noToolRecord (m : ChatMessage) (h : noToolRecord m = true)
    (acc : List (String × ToolResultItem)) : trmMsg acc m = acc := by
  unfold trmMsg
  unfold noToolRecord at h
  cases hc : contentOf m with
  | none => rfl
  | some mc =>
    cases mc with
    | str s => rfl
    | items l =>
      rw [hc] at h
      dsimp only at h
      exact foldl_trmItem_of_no_result l (noToolItems_no_result l h) acc

theorem foldl_trmMsg_of_noTool (msgs : List ChatMessage)
    (h : ∀ m ∈ msgs, noToolRecord m = true) :
    ∀ acc, msgs.foldl trmMsg acc = acc := by
  induction msgs with
  | nil => intro acc; rfl
  | cons m rest ih =>
    intro acc
    rw [List.foldl_cons, trmMsg_of_noToolRecord m (h m (List.mem_cons_self ..)) acc]
    exact ih (fun x hx => h x (List.mem_cons_of_mem _ hx)) acc

theorem aggItem_of_not_use (trm : List (String × ToolResultItem)) (acc : List String)
    (item : ContentItem) (h : isToolUseItem item = false) : aggItem trm acc item = acc := by
  cases item <;> simp_all [aggItem, isToolUseItem]

theorem foldl_aggItem_of_no_use (trm : List (String × ToolResultItem)) (items : List ContentItem)
    (h : ∀ item ∈ items, isToolUseItem item = false) :
    ∀ acc, items.foldl (aggItem trm) acc = acc := by
  induction items with
  | nil => intro acc; rfl
  | cons i rest ih =>
    intro acc
    rw [List.foldl_cons, aggItem_of_not_use trm acc i (h i (List.mem_cons_self ..))]
    exact ih (fun item hi => h item (List.mem_cons_of_mem _ hi)) acc

theorem aggMsg_of_noToolRecord (trm : List (String × ToolResultItem)) (m : ChatMessage)
    (h : noToolRecord m = true) (acc : List String) : aggMsg trm acc m = acc := by
  unfold aggMsg
  unfold noToolRecord at h
  cases hc : contentOf m with
  | none => rfl
  | some mc =>
    cases mc with
    | str s => rfl
    | items l =>
      rw [hc] at h
      dsimp only at h
      exact foldl_aggItem_of_no_use trm l (noToolItems_no_use l h) acc

theorem foldl_aggMsg_of_noTool (trm : List (String × ToolResultItem)) (msgs : List ChatMessage)
    (h : ∀ m ∈ msgs, noToolRecord m = true) :
    ∀ acc, msgs.foldl (aggMsg trm) acc = acc := by
  induction msgs with
  | nil => intro acc; rfl
  | cons m rest ih =>
    intro acc
    rw [List.foldl_cons, aggMsg_of_noToolRecord trm m (h m (List.mem_cons_self ..)) acc]
    exact ih (fun x hx => h x (List.mem_cons_of_mem _ hx)) acc

theorem localMapsStep_of_not_tool
    (maps : List (String × ToolUseItem) × List (String × ToolResultItem))
    (item : ContentItem) (h1 : isToolUseItem item = false) (h2 : isToolResultItem item = false) :
    localMapsStep maps item = maps := by
  cases item <;> simp_all [localMapsStep, isToolUseItem, isToolResultItem]

theorem foldl_localMapsStep_of_noTool (items : List ContentItem) (h : noToolItems items = true) :
    ∀ maps, items.foldl localMapsStep maps = maps := by
  induction items with
  | nil => intro maps; rfl
  | cons i rest ih =>
    intro maps
    have hnu := noToolItems_no_use _ h i (List.mem_cons_self ..)
    have hnr := noToolItems_no_result _ h i (List.mem_cons_self ..)
    rw [List.foldl_cons, localMapsStep_of_not_tool maps i hnu hnr]
    have hrest : noToolItems rest = true := by
      unfold noToolItems at h ⊢
      rw [List.all_eq_true] at h ⊢
      exact fun x hx => h x (List.mem_cons_of_mem _ hx)
    exact ih hrest maps

theorem parseStep_preserves_of_not_tool (tu : List (String × ToolUseItem))
    (itr : List (String × ToolResultItem)) (ext : Option (List (String × ToolResultItem)))
    (st : PMState) (item : ContentItem)
    (h1 : isToolUseItem item = false) (h2 : isToolResultItem item = false) :
    (parseStep tu itr ext st item).toolUseContent = st.toolUseContent ∧
    (parseStep tu itr ext st item).processed = st.processed := by
  cases item <;> simp_all [parseStep, isToolUseItem, isToolResultItem]

theorem foldl_parseStep_preserves (tu : List (String × ToolUseItem))
    (itr : List (String × ToolResultItem)) (ext : Option (List (String × ToolResultItem)))
    (items : List ContentItem) (h : noToolItems items = true) :
    ∀ st : PMState, ((items.foldl (parseStep tu itr ext) st).toolUseContent = st.toolUseContent ∧
      (items.foldl (parseStep tu itr ext) st).processed = st.processed) := by
  induction items with
  | nil => intro st; exact ⟨rfl, rfl⟩
  | cons i rest ih =>
    intro st
    have hnu := noToolItems_no_use _ h i (List.mem_cons_self ..)
    have hnr := noToolItems_no_result _ h i (List.mem_cons_self ..)
    have hrest : noToolItems rest = true := by
      unfold noToolItems at h ⊢
      rw [List.all_eq_true] at h ⊢
      exact fun x hx => h x (List.mem_cons_of_mem _ hx)
    have hstep := parseStep_preserves_of_not_tool tu itr ext st i hnu hnr
    have hih := ih hrest (parseStep tu itr ext st i)
    rw [List.foldl_cons]
    exact ⟨hih.1.trans hstep.1, hih.2.trans hstep.2⟩

theorem parseStep_toolUse_fresh (tu : List (String × ToolUseItem))
    (itr : List (String × ToolResultItem)) (ext : Option (List (String × ToolResultItem)))
    (st : PMState) (i : String) (nm : Option String) (inp : Option JsonVal)
    (hi : i ≠ "") (hp : st.processed.contains i = false) :
    (parseStep tu itr ext st (ContentItem.toolUse (some i) nm inp)).toolUseContent =
      st.toolUseContent ++
        [ToolBlock.paired i nm (getToolKeyParams (jsOrStr nm "Unknown") inp) inp
          (match mapGet itr i with
           | some r => some r
           | none =>
             match ext with
             | some e => mapGet e i
             | none => none)] ∧
    (parseStep tu itr ext st (ContentItem.toolUse (some i) nm inp)).processed =
      st.processed ++ [i] := by
  unfold parseStep
  dsimp only
  rw [hp]
  simp [hi]

theorem parseStep_toolResult_skip (tu : List (String × ToolUseItem))
    (itr : List (String × ToolResultItem)) (e : List (String × ToolResultItem))
    (st : PMState) (t : String) (c : Option JsonVal)
    (ht : t ≠ "") (hhas : mapHas e t = true) :
    parseStep tu itr (some e) st (ContentItem.toolResult (some t) c) = st := by
  unfold parseStep
  dsimp only
  rw [hhas]
  simp [ht]

theorem foldl_parseStep_around_toolUse (tu : List (String × ToolUseItem))
    (itr : List (String × ToolResultItem)) (ext : Option (List (String × ToolResultItem)))
    (ta tb : List ContentItem) (hta : noToolItems ta = true) (htb : noToolItems tb = true)
    (i : String) (nm : Option String) (inp : Option JsonVal) (hi : i ≠ "")
    (st0 : PMState) (hp : st0.processed.contains i = false) :
    ((ta ++ ContentItem.toolUse (some i) nm inp :: tb).foldl
        (parseStep tu itr ext) st0).toolUseContent =
      st0.toolUseContent ++
        [ToolBlock.paired i nm (getToolKeyParams (jsOrStr nm "Unknown") inp) inp
          (match mapGet itr i with
           | some r => some r
           | none =>
             match ext with
             | some e => mapGet e i
             | none => none)] := by
  rw [List.foldl_append, List.foldl_cons]
  have h1 := foldl_parseStep_preserves tu itr ext ta hta st0
  have h2 := parseStep_toolUse_fresh tu itr ext (ta.foldl (parseStep tu itr ext) st0) i nm inp hi
    (by rw [h1.2]; exact hp)
  have h3 := foldl_parseStep_preserves tu itr ext tb htb
    (parseStep tu itr ext (ta.foldl (parseStep tu itr ext) st0)
      (ContentItem.toolUse (some i) nm inp))
  rw [h3.1, h2.1, h1.1]

theorem foldl_parseStep_around_skipResult (tu : List (String × ToolUseItem))
    (itr : List (String × ToolResultItem)) (e : List (String × ToolResultItem))
    (tc td : List ContentItem) (htc : noToolItems tc = true) (htd : noToolItems td = true)
    (t : String) (c : Option JsonVal) (ht : t ≠ "") (hhas : mapHas e t = true)
    (st0 : PMState) :
    ((tc ++ ContentItem.toolResult (some t) c :: td).foldl
        (parseStep tu itr (some e)) st0).toolUseContent = st0.toolUseContent := by
  rw [List.foldl_append, List.foldl_cons]
  have h1 := foldl_parseStep_preserves tu itr (some e) tc htc st0
  rw [parseStep_toolResult_skip tu itr e _ t c ht hhas]
  have h3 := foldl_parseStep_preserves tu itr (some e) td htd
    (tc.foldl (parseStep tu itr (some e)) st0)
  rw [h3.1, h1.1]

/-- C2: in a session whose only tool units are one invocation `t1` in record
`A` and one result `t1` in a later record `B`, the resolved view pairs them in
a single tool block emitted at `A`'s position: `A`'s parse holds exactly that
block carrying `B`'s payload, no other record (including `B`) emits any tool
block, and when `B` holds nothing but that result unit it is omitted from the
view entirely. -/
theorem resolved_view_tool_pairing
    (pre mid post : List ChatMessage) (A B : ChatMessage)
    (ta tb tc td : List ContentItem) (nm : Option String) (inp pl : Option JsonVal)
    (hA : contentOf A = some (MessageContent.items
      (ta ++ ContentItem.toolUse (some "t1") nm inp :: tb)))
    (hB : contentOf B = some (MessageContent.items
      (tc ++ ContentItem.toolResult (some "t1") pl :: td)))
    (hta : noToolItems ta = true) (htb : noToolItems tb = true)
    (htc : noToolItems tc = true) (htd : noToolItems td = true)
    (hothers : ∀ m ∈ pre ++ mid ++ post, noToolRecord m = true) :
    toolResultMap (pre ++ A :: (mid ++ B :: post)) = [("t1", ⟨"t1", pl⟩)] ∧
    (parseMessage A (some (toolResultMap (pre ++ A :: (mid ++ B :: post))))).toolUseContent =
      [ToolBlock.paired "t1" nm (getToolKeyParams (jsOrStr nm "Unknown") inp) inp
        (some ⟨"t1", pl⟩)] ∧
    (parseMessage B (some (toolResultMap (pre ++ A :: (mid ++ B :: post))))).toolUseContent
      = [] ∧
    (∀ m ∈ pre ++ mid ++ post,
      (parseMessage m (some (toolResultMap (pre ++ A :: (mid ++ B :: post))))).toolUseContent
        = []) ∧
    (tc = [] → td = [] →
      filteredMessages (pre ++ A :: (mid ++ B :: post)) = pre ++ A :: (mid ++ post)) := by
  have hpre : ∀ m ∈ pre, noToolRecord m = true := fun m hm => hothers m (by simp [hm])
  have hmid : ∀ m ∈ mid, noToolRecord m = true := fun m hm => hothers m (by simp [hm])
  have hpost : ∀ m ∈ post, noToolRecord m = true := fun m hm => hothers m (by simp [hm])
  have hAtrm : ∀ acc, trmMsg acc A = acc := by
    intro acc
    unfold trmMsg
    rw [hA]
    dsimp only
    rw [List.foldl_append, foldl_trmItem_of_no_result ta (noToolItems_no_result ta hta) acc,
      List.foldl_cons,
      trmItem_of_not_result acc (ContentItem.toolUse (some "t1") nm inp) rfl]
    exact foldl_trmItem_of_no_result tb (noToolItems_no_result tb htb) acc
  have hBtrm : ∀ acc, trmMsg acc B = mapSet acc "t1" ⟨"t1", pl⟩ := by
    intro acc
    unfold trmMsg
    rw [hB]
    dsimp only
    rw [List.foldl_append, foldl_trmItem_of_no_result tc (noToolItems_no_result tc htc) acc,
      List.foldl_cons,
      show trmItem acc (ContentItem.toolResult (some "t1") pl) = mapSet acc "t1" ⟨"t1", pl⟩
        from by simp [trmItem]]
    exact foldl_trmItem_of_no_result td (noToolItems_no_result td htd) _
  have htrm : toolResultMap (pre ++ A :: (mid ++ B :: post)) = [("t1", ⟨"t1", pl⟩)] := by
    unfold toolResultMap
    rw [List.foldl_append, foldl_trmMsg_of_noTool pre hpre, List.foldl_cons, hAtrm,
      List.foldl_append, foldl_trmMsg_of_noTool mid hmid, List.foldl_cons, hBtrm,
      foldl_trmMsg_of_noTool post hpost]
    rfl
  have haggA : ∀ acc, aggMsg (toolResultMap (pre ++ A :: (mid ++ B :: post))) acc A =
      setAdd acc "t1" := by
    intro acc
    unfold aggMsg
    rw [hA]
    dsimp only
    rw [List.foldl_append, foldl_aggItem_of_no_use _ ta (noToolItems_no_use ta hta) acc,
      List.foldl_cons,
      show aggItem (toolResultMap (pre ++ A :: (mid ++ B :: post))) acc
          (ContentItem.toolUse (some "t1") nm inp) = setAdd acc "t1"
        from by simp [aggItem, htrm, mapHas, mapGet]]
    exact foldl_aggItem_of_no_use _ tb (noToolItems_no_use tb htb) _
  have haggB : ∀ acc, aggMsg (toolResultMap (pre ++ A :: (mid ++ B :: post))) acc B = acc := by
    intro acc
    unfold aggMsg
    rw [hB]
    dsimp only
    rw [List.foldl_append, foldl_aggItem_of_no_use _ tc (noToolItems_no_use tc htc) acc,
      List.foldl_cons,
      aggItem_of_not_use _ acc (ContentItem.toolResult (some "t1") pl) rfl]
    exact foldl_aggItem_of_no_use _ td (noToolItems_no_use td htd) _
  have hagg : aggregatedToolResultIds (pre ++ A :: (mid ++ B :: post)) = ["t1"] := by
    unfold aggregatedToolResultIds
    rw [List.foldl_append, foldl_aggMsg_of_noTool _ pre hpre, List.foldl_cons, haggA,
      List.foldl_append, foldl_aggMsg_of_noTool _ mid hmid, List.foldl_cons, haggB,
      foldl_aggMsg_of_noTool _ post hpost]
    rfl
  have hbuildA : buildLocalMaps (ta ++ ContentItem.toolUse (some "t1") nm inp :: tb) =
      ([("t1", ⟨"t1", jsOrStr nm "Unknown", inp⟩)], []) := by
    unfold buildLocalMaps
    rw [List.foldl_append, foldl_localMapsStep_of_noTool ta hta, List.foldl_cons,
      show localMapsStep ([], []) (ContentItem.toolUse (some "t1") nm inp) =
          ([("t1", ⟨"t1", jsOrStr nm "Unknown", inp⟩)], [])
        from by simp [localMapsStep, mapSet]]
    exact foldl_localMapsStep_of_noTool tb htb _
  have hbuildB : buildLocalMaps (tc ++ ContentItem.toolResult (some "t1") pl :: td) =
      ([], [("t1", ⟨"t1", pl⟩)]) := by
    unfold buildLocalMaps
    rw [List.foldl_append, foldl_localMapsStep_of_noTool tc htc, List.foldl_cons,
      show localMapsStep ([], []) (ContentItem.toolResult (some "t1") pl) =
          ([], [("t1", ⟨"t1", pl⟩)])
        from by simp [localMapsStep, mapSet]]
    exact foldl_localMapsStep_of_noTool td htd _
  have hparseA : (parseMessage A
      (some (toolResultMap (pre ++ A :: (mid ++ B :: post))))).toolUseContent =
      [ToolBlock.paired "t1" nm (getToolKeyParams (jsOrStr nm "Unknown") inp) inp
        (some ⟨"t1", pl⟩)] := by
    rw [htrm]
    unfold parseMessage
    rw [hA]
    dsimp only
    rw [hbuildA]
    dsimp only
    rw [foldl_parseStep_around_toolUse _ _ _ ta tb hta htb "t1" nm inp (by decide)
      ⟨[], [], if A.type = MsgType.user then BadgeType.user else BadgeType.assistant,
        [], [], []⟩ rfl]
    simp [mapGet]
  have hparseB : (parseMessage B
      (some (toolResultMap (pre ++ A :: (mid ++ B :: post))))).toolUseContent = [] := by
    rw [htrm]
    unfold parseMessage
    rw [hB]
    dsimp only
    rw [hbuildB]
    dsimp only
    rw [foldl_parseStep_around_skipResult _ _ _ tc td htc htd "t1" pl (by decide)
      (by simp [mapHas, mapGet]) _]
  have hother : ∀ m, noToolRecord m = true →
      ∀ ext, (parseMessage m ext).toolUseContent = [] := by
    intro m hm ext
    unfold parseMessage
    unfold noToolRecord at hm
    cases hc : contentOf m with
    | none => rfl
    | some mc =>
      cases mc with
      | str s => rfl
      | items l =>
        rw [hc] at hm
        dsimp only at hm
        dsimp only
        exact (foldl_parseStep_preserves _ _ _ l hm _).1
  refine ⟨htrm, hparseA, hparseB, ?_, ?_⟩
  · intro m hm
    exact hother m (hothers m hm) _
  · intro htcnil htdnil
    subst htcnil htdnil
    have hfaB : isMessageFullyAggregated (pre ++ A :: (mid ++ B :: post)) B = true := by
      unfold isMessageFullyAggregated
      rw [hB]
      dsimp only
      rw [hagg]
      simp [isToolResultItem]
    have hfa_noTool : ∀ m, noToolRecord m = true →
        isMessageFullyAggregated (pre ++ A :: (mid ++ B :: post)) m = false := by
      intro m hm
      unfold isMessageFullyAggregated
      unfold noToolRecord at hm
      cases hc : contentOf m with
      | none => rfl
      | some mc =>
        cases mc with
        | str s => rfl
        | items l =>
          rw [hc] at hm
          dsimp only at hm
          dsimp only
          rw [show l.filter isToolResultItem = [] from by
            rw [List.filter_eq_nil_iff]
            intro a ha
            simp [noToolItems_no_result l hm a ha]]
          rfl
    have hfaA : isMessageFullyAggregated (pre ++ A :: (mid ++ B :: post)) A = false := by
      unfold isMessageFullyAggregated
      rw [hA]
      dsimp only
      rw [show (ta ++ ContentItem.toolUse (some "t1") nm inp :: tb).filter isToolResultItem
          = [] from by
        rw [List.filter_eq_nil_iff]
        intro a ha
        rcases List.mem_append.mp ha with h | h
        · simp [noToolItems_no_result ta hta a h]
        · rcases List.mem_cons.mp h with h | h
          · subst h; simp [isToolResultItem]
          · simp [noToolItems_no_result tb htb a h]]
      rfl
    have hp1 : pre.filter
        (fun m => !isMessageFullyAggregated (pre ++ A :: (mid ++ B :: post)) m) = pre :=
      List.filter_eq_self.mpr (fun m hm => by rw [hfa_noTool m (hpre m hm)]; rfl)
    have hp2 : mid.filter
        (fun m => !isMessageFullyAggregated (pre ++ A :: (mid ++ B :: post)) m) = mid :=
      List.filter_eq_self.mpr (fun m hm => by rw [hfa_noTool m (hmid m hm)]; rfl)
    have hp3 : post.filter
        (fun m => !isMessageFullyAggregated (pre ++ A :: (mid ++ B :: post)) m) = post :=
      List.filter_eq_self.mpr (fun m hm => by rw [hfa_noTool m (hpost m hm)]; rfl)
    unfold filteredMessages
    rw [List.filter_append, hp1, List.filter_cons, hfaA, List.filter_append, hp2,
      List.filter_cons, hfaB, hp3]
    rfl

/-- C2 witness: a two-record session — a Bash invocation `t1` followed by its
result — yields one paired tool block on the first record and drops the
second record from the view. -/
theorem resolved_view_tool_pairing_witness :
    (parseMessage
        (ChatMessage.mk MsgType.assistant none "tA" "" false none
          (some ⟨some (MessageContent.items
            [ContentItem.toolUse (some "t1") (some "Bash")
              (some (JsonVal.obj [("command", JsonVal.str "ls")]))])⟩))
        (some (toolResultMap
          [ChatMessage.mk MsgType.assistant none "tA" "" false none
            (some ⟨some (MessageContent.items
              [ContentItem.toolUse (some "t1") (some "Bash")
                (some (JsonVal.obj [("command", JsonVal.str "ls")]))])⟩),
           ChatMessage.mk MsgType.user none "tB" "" false none
            (some ⟨some (MessageContent.items
              [ContentItem.toolResult (some "t1") (some (JsonVal.str "ok"))])⟩)]))).toolUseContent
      = [ToolBlock.paired "t1" (some "Bash")
          (getToolKeyParams (jsOrStr (some "Bash") "Unknown")
            (some (JsonVal.obj [("command", JsonVal.str "ls")])))
          (some (JsonVal.obj [("command", JsonVal.str "ls")]))
          (some ⟨"t1", some (JsonVal.str "ok")⟩)] ∧
    filteredMessages
        [ChatMessage.mk MsgType.assistant none "tA" "" false none
          (some ⟨some (MessageContent.items
            [ContentItem.toolUse (some "t1") (some "Bash")
              (some (JsonVal.obj [("command", JsonVal.str "ls")]))])⟩),
         ChatMessage.mk MsgType.user none "tB" "" false none
          (some ⟨some (MessageContent.items
            [ContentItem.toolResult (some "t1") (some (JsonVal.str "ok"))])⟩)] =
      [ChatMessage.mk MsgType.assistant none "tA" "" false none
        (some ⟨some (MessageContent.items
          [ContentItem.toolUse (some "t1") (some "Bash")
            (some (JsonVal.obj [("command", JsonVal.str "ls")]))])⟩)] := by
  have h := resolved_view_tool_pairing [] [] []
    (ChatMessage.mk MsgType.assistant none "tA" "" false none
      (some ⟨some (MessageContent.items
        [ContentItem.toolUse (some "t1") (some "Bash")
          (some (JsonVal.obj [("command", JsonVal.str "ls")]))])⟩))
    (ChatMessage.mk MsgType.user none "tB" "" false none
      (some ⟨some (MessageContent.items
        [ContentItem.toolResult (some "t1") (some (JsonVal.str "ok"))])⟩))
    [] [] [] [] (some "Bash") (some (JsonVal.obj [("command", JsonVal.str "ls")]))
    (some (JsonVal.str "ok"))
    rfl rfl rfl rfl rfl rfl (by intro m hm; simp at hm)
  exact ⟨h.2.1, h.2.2.2.2 rfl rfl⟩

/-- Case analysis of `processFile`: it either leaves the state unchanged, or
appends one summary whose id is the file's header session id, fresh with
respect to the seen set, and marks that id seen. -/
theorem processFile_cases (projectDir : String) (st : List ChatSessionSummary × List String)
    (file : FileEntry) :
    processFile projectDir st file = st ∨
    ∃ sid summary, sessionIdOfFile file = some sid ∧ st.2.contains sid = false ∧
      ChatSessionSummary.sessionId summary = sid ∧
      processFile projectDir st file = (st.1 ++ [summary], st.2 ++ [sid]) := by
  unfold processFile sessionIdOfFile
  cases h1 : readSessionMetadata file.lines with
  | none => left; rfl
  | some md =>
    dsimp only
    cases h2 : md.firstMessages with
    | nil => left; rfl
    | cons first rest =>
      dsimp only
      cases h3 : first.sessionId with
      | none => left; rfl
      | some sid =>
        dsimp only
        by_cases h4 : sid = ""
        · left; simp [h4]
        · by_cases h5 : st.2.contains sid
          · left
            have h5' : sid ∈ st.2 := by simpa using h5
            simp [h4, h5']
          · right
            have h5' : sid ∉ st.2 := by simpa using h5
            refine ⟨sid,
              { sessionId := sid,
                firstMessageTimestamp := first.timestamp,
                lastMessageTimestamp :=
                  jsOrStr (md.lastMessage.map (·.timestamp)) first.timestamp,
                projectPath := projectDir,
                messageCount := md.lineCount,
                firstUserMessage := getFirstUserMessage (first :: rest),
                cwd := first.cwd }, ?_, ?_, rfl, ?_⟩
            · simp [h4]
            · simpa using h5
            · simp [h4, h5']

/-- A file whose header session id is already seen is skipped entirely. -/
theorem processFile_skip_seen (projectDir : String)
    (st : List ChatSessionSummary × List String) (file : FileEntry) (sid : String)
    (hsid : sessionIdOfFile file = some sid) (hseen : sid ∈ st.2) :
    processFile projectDir st file = st := by
  rcases processFile_cases projectDir st file with h | ⟨sid', summary, h1, h2, h3, h4⟩
  · exact h
  · rw [hsid] at h1
    injection h1 with h1
    subst h1
    simp only [List.elem_eq_mem, decide_eq_false_iff_not] at h2
    exact absurd hseen h2

/-- The seen set only ever grows under `processFile`. -/
theorem processFile_seen_mono (projectDir : String)
    (st : List ChatSessionSummary × List String) (file : FileEntry) :
    ∀ x ∈ st.2, x ∈ (processFile projectDir st file).2 := by
  intro x hx
  rcases processFile_cases projectDir st file with h | ⟨sid, summary, _, _, _, h4⟩
  · rw [h]; exact hx
  · rw [h4]; exact List.mem_append_left _ hx

/-- Invariant of the per-project file fold: relative to the ids `base`
accumulated by earlier projects, the session ids stay globally distinct and
recorded in the seen set, and the seen set grows. -/
theorem foldl_processFile_invariant (projectDir : String) (files : List FileEntry)
    (base : List String) :
    ∀ st : List ChatSessionSummary × List String,
      (base ++ st.1.map ChatSessionSummary.sessionId).Nodup →
      (∀ x ∈ base ++ st.1.map ChatSessionSummary.sessionId, x ∈ st.2) →
      ((base ++ (files.foldl (processFile projectDir) st).1.map
          ChatSessionSummary.sessionId).Nodup ∧
       (∀ x ∈ base ++ (files.foldl (processFile projectDir) st).1.map
          ChatSessionSummary.sessionId, x ∈ (files.foldl (processFile projectDir) st).2) ∧
       (∀ x ∈ st.2, x ∈ (files.foldl (processFile projectDir) st).2)) := by
  induction files with
  | nil => intro st h1 h2; exact ⟨h1, h2, fun x hx => hx⟩
  | cons f rest ih =>
    intro st h1 h2
    rw [List.foldl_cons]
    rcases processFile_cases projectDir st f with h | ⟨sid, summary, hs1, hs2, hs3, hs4⟩
    · rw [h]; exact ih st h1 h2
    · rw [hs4]
      have hnotin : sid ∉ base ++ st.1.map ChatSessionSummary.sessionId := by
        intro hx
        have hmem := h2 sid hx
        simp only [List.elem_eq_mem, decide_eq_false_iff_not] at hs2
        exact hs2 hmem
      have hnd : (base ++ (st.1 ++ [summary]).map ChatSessionSummary.sessionId).Nodup := by
        rw [List.map_append, ← List.append_assoc]
        refine List.Nodup.append h1 (by simp) ?_
        intro a ha hb
        simp only [List.map_cons, List.map_nil, List.mem_singleton, hs3] at hb
        subst hb
        exact hnotin ha
      have hmem : ∀ x ∈ base ++ (st.1 ++ [summary]).map ChatSessionSummary.sessionId,
          x ∈ st.2 ++ [sid] := by
        intro x hx
        rw [List.map_append, ← List.append_assoc, List.mem_append] at hx
        rcases hx with hx | hx
        · exact List.mem_append_left _ (h2 x hx)
        · simp only [List.map_cons, List.map_nil, List.mem_singleton, hs3] at hx
          subst hx
          exact List.mem_append_right _ (List.mem_singleton.mpr rfl)
      have hres := ih (st.1 ++ [summary], st.2 ++ [sid]) hnd hmem
      exact ⟨hres.1, hres.2.1, fun x hx => hres.2.2 x (List.mem_append_left _ hx)⟩

theorem indexSessionIds_append_single (ps : List ProjectDirectorySummary)
    (p : ProjectDirectorySummary) :
    indexSessionIds (ps ++ [p]) =
      indexSessionIds ps ++ p.sessions.map ChatSessionSummary.sessionId := by
  simp [indexSessionIds]

/-- Invariant of the per-directory step: the index session ids stay distinct
and recorded in the global seen set. -/
theorem dirStep_invariant (g : String → Int) (dir : ProjectDirEntry)
    (acc : List ProjectDirectorySummary × List String)
    (h1 : (indexSessionIds acc.1).Nodup)
    (h2 : ∀ x ∈ indexSessionIds acc.1, x ∈ acc.2) :
    (indexSessionIds (dirStep g acc dir).1).Nodup ∧
    (∀ x ∈ indexSessionIds (dirStep g acc dir).1, x ∈ (dirStep g acc dir).2) := by
  have hres := foldl_processFile_invariant dir.name
    (dir.files.filter fun f => f.name.endsWith ".jsonl") (indexSessionIds acc.1)
    ([], acc.2)
    (by simpa using h1)
    (by intro x hx; simp only [List.map_nil, List.append_nil] at hx; exact h2 x hx)
  unfold dirStep
  dsimp only
  by_cases hempty : (List.foldl (processFile dir.name) ([], acc.2)
      (dir.files.filter fun f => f.name.endsWith ".jsonl")).1.isEmpty
  · rw [if_pos hempty]
    exact ⟨h1, fun x hx => hres.2.2 x (h2 x hx)⟩
  · rw [if_neg hempty]
    have hperm : (indexSessionIds acc.1 ++
        ((List.foldl (processFile dir.name) ([], acc.2)
          (dir.files.filter fun f => f.name.endsWith ".jsonl")).1.mergeSort (sessLe g)).map
          ChatSessionSummary.sessionId).Perm
        (indexSessionIds acc.1 ++
          (List.foldl (processFile dir.name) ([], acc.2)
            (dir.files.filter fun f => f.name.endsWith ".jsonl")).1.map
            ChatSessionSummary.sessionId) :=
      List.Perm.append_left _ ((List.mergeSort_perm _ _).map _)
  
    constructor
    · rw [indexSessionIds_append_single]
      dsimp only
      exact hperm.nodup_iff.mpr hres.1
    · intro x hx
      rw [indexSessionIds_append_single] at hx
      dsimp only at hx
      exact hres.2.1 x (hperm.mem_iff.mp hx)

theorem foldl_dirStep_invariant (g : String → Int) (dirs : List ProjectDirEntry) :
    ∀ acc : List ProjectDirectorySummary × List String,
      (indexSessionIds acc.1).Nodup → (∀ x ∈ indexSessionIds acc.1, x ∈ acc.2) →
      ((indexSessionIds (dirs.foldl (dirStep g) acc).1).Nodup ∧
       ∀ x ∈ indexSessionIds (dirs.foldl (dirStep g) acc).1,
         x ∈ (dirs.foldl (dirStep g) acc).2) := by
  induction dirs with
  | nil => intro acc ha hb; exact ⟨ha, hb⟩
  | cons d rest ih =>
    intro acc ha hb
    rw [List.foldl_cons]
    have hd := dirStep_invariant g d acc ha hb
    exact ih (dirStep g acc d) hd.1 hd.2

/-- C1: no two session summaries anywhere in the built index share a session
id, and a file whose header session id is already in the seen set is skipped
entirely (the first file in enumeration order wins). -/
theorem index_sessionIds_nodup (g : String → Int) (root : Option (List ProjectDirEntry))
    (projectDir : String) (st : List ChatSessionSummary × List String)
    (file : FileEntry) (sid : String) :
    (indexSessionIds (getChatSessions g root)).Nodup ∧
    (sessionIdOfFile file = some sid → sid ∈ st.2 →
      processFile projectDir st file = st) := by
  constructor
  · cases root with
    | none => simp [getChatSessions, indexSessionIds]
    | some dirs =>
      unfold getChatSessions
      dsimp only
      have h := foldl_dirStep_invariant g dirs ([], [])
        (by simp [indexSessionIds]) (by simp [indexSessionIds])
      have hperm : (indexSessionIds
          (((dirs.foldl (dirStep g) ([], [])).1).mergeSort (projLe g))).Perm
          (indexSessionIds (dirs.foldl (dirStep g) ([], [])).1) := by
        unfold indexSessionIds
        exact ((List.mergeSort_perm _ _).flatMap_right _).map _
      exact hperm.nodup_iff.mpr h.1
  · intro hsid hseen
    exact processFile_skip_seen projectDir st file sid hsid hseen

/-- C1 witness: a second file carrying an already-seen session id leaves both
the sessions list and the seen set untouched. -/
theorem index_sessionIds_nodup_witness :
    sessionIdOfFile (FileEntry.mk "b.jsonl"
        [LogLine.record (ChatMessage.mk MsgType.user (some "s1") "t0" "" false none none)]) =
      some "s1" ∧
    "s1" ∈ ["s1"] ∧
    processFile "proj1" ([], ["s1"])
        (FileEntry.mk "b.jsonl"
          [LogLine.record (ChatMessage.mk MsgType.user (some "s1") "t0" "" false none none)]) =
      ([], ["s1"]) := by
  refine ⟨rfl, by decide, ?_⟩
  exact (index_sessionIds_nodup (fun _ => 0) none "proj1" ([], ["s1"])
    (FileEntry.mk "b.jsonl"
      [LogLine.record (ChatMessage.mk MsgType.user (some "s1") "t0" "" false none none)])
    "s1").2 rfl (by decide)

theorem sessLe_trans (g : String → Int) : ∀ a b c : ChatSessionSummary,
    sessLe g a b = true → sessLe g b c = true → sessLe g a c = true := by
  intro a b c hab hbc
  simp only [sessLe, decide_eq_true_eq] at *
  omega

theorem sessLe_total (g : String → Int) : ∀ a b : ChatSessionSummary,
    (sessLe g a b || sessLe g b a) = true := by
  intro a b
  simp only [sessLe, Bool.or_eq_true, decide_eq_true_eq]
  omega

theorem projLe_trans (g : String → Int) : ∀ a b c : ProjectDirectorySummary,
    projLe g a b = true → projLe g b c = true → projLe g a c = true := by
  intro a b c hab hbc
  simp only [projLe, decide_eq_true_eq] at *
  omega

theorem projLe_total (g : String → Int) : ∀ a b : ProjectDirectorySummary,
    (projLe g a b || projLe g b a) = true := by
  intro a b
  simp only [projLe, Bool.or_eq_true, decide_eq_true_eq]
  omega

theorem dirStep_sessions_sorted (g : String → Int) (dir : ProjectDirEntry)
    (acc : List ProjectDirectorySummary × List String)
    (h : ∀ p ∈ acc.1, p.sessions.Pairwise (fun a b =>
      g b.lastMessageTimestamp ≤ g a.lastMessageTimestamp)) :
    ∀ p ∈ (dirStep g acc dir).1, p.sessions.Pairwise (fun a b =>
      g b.lastMessageTimestamp ≤ g a.lastMessageTimestamp) := by
  unfold dirStep
  dsimp only
  by_cases hempty : (List.foldl (processFile dir.name) ([], acc.2)
      (dir.files.filter fun f => f.name.endsWith ".jsonl")).1.isEmpty
  · rw [if_pos hempty]; exact h
  · rw [if_neg hempty]
    intro p hp
    rcases List.mem_append.mp hp with hp | hp
    · exact h p hp
    · rw [List.mem_singleton] at hp
      subst hp
      dsimp only
      have hs := List.sorted_mergeSort (sessLe_trans g) (sessLe_total g)
        (List.foldl (processFile dir.name) ([], acc.2)
          (dir.files.filter fun f => f.name.endsWith ".jsonl")).1
      exact hs.imp (fun hab => by
        simp only [sessLe, decide_eq_true_eq] at hab
        omega)

theorem foldl_dirStep_sessions_sorted (g : String → Int) (dirs : List ProjectDirEntry) :
    ∀ acc : List ProjectDirectorySummary × List String,
      (∀ p ∈ acc.1, p.sessions.Pairwise (fun a b =>
        g b.lastMessageTimestamp ≤ g a.lastMessageTimestamp)) →
      ∀ p ∈ (dirs.foldl (dirStep g) acc).1, p.sessions.Pairwise (fun a b =>
        g b.lastMessageTimestamp ≤ g a.lastMessageTimestamp) := by
  induction dirs with
  | nil => intro acc h; exact h
  | cons d rest ih =>
    intro acc h
    rw [List.foldl_cons]
    exact ih (dirStep g acc d) (dirStep_sessions_sorted g d acc h)

/-- C5: in the built index, each project's sessions are non-increasing by
`lastMessageTimestamp` (under the date-value function `g`), and the projects
are non-increasing by the key of their first session (with the `|| 0`
fallback of the source comparator). -/
theorem getChatSessions_sorted (g : String → Int) (root : Option (List ProjectDirEntry)) :
    (getChatSessions g root).Forall (fun p =>
      p.sessions.Pairwise (fun a b =>
        g b.lastMessageTimestamp ≤ g a.lastMessageTimestamp)) ∧
    (getChatSessions g root).Pairwise (fun p q => projLatest g q ≤ projLatest g p) := by
  cases root with
  | none => exact ⟨trivial, List.Pairwise.nil⟩
  | some dirs =>
    unfold getChatSessions
    dsimp only
    constructor
    · rw [List.forall_iff_forall_mem]
      intro p hp
      rw [List.mem_mergeSort] at hp
      exact foldl_dirStep_sessions_sorted g dirs ([], [])
        (by intro q hq; simp at hq) p hp
    · have hs := List.sorted_mergeSort (projLe_trans g) (projLe_total g)
        (dirs.foldl (dirStep g) ([], [])).1
      exact hs.imp (fun hab => by
        simp only [projLe, decide_eq_true_eq] at hab
        omega)
